import Mathlib

/-!
Verification development for the oneshot life-admin record system.

This file gives a shallow embedding of the server's pure core
(`src/unnamed/part_001`, first revision, and
`src/server/routes/dashboardRoutes.js`): text/date/time normalization,
canonical keys, relevance filtering, the ingestion state machine
(source detachment, deterministic matching, merge, insert), the
confidence gate of the external duplicate resolver, and the dashboard
section classifier/normalizer.  JavaScript strings are modelled as Lean
`String` with `""` playing the role of `null`/`undefined` for string
fields (both are falsy in JS); JS `Date` parsing and the current year,
which depend on the host environment, are a parameter (`JsEnv`).
Theorems about the claims of the specification follow the definitions.
-/

namespace Oneshot

/-! ### Character classes, mirroring the JS regex classes used by the source -/

/-- Whitespace as matched by the JS `\s` class and `trim` (ASCII part). -/
def isWs (c : Char) : Bool :=
  c = ' ' || c = '\t' || c = '\n' || c = '\r' || c = '\x0b' || c = '\x0c'

/-- Characters kept by the `[^a-z0-9\s]` strip in `normalizeText`. -/
def isLowerAlnum (c : Char) : Bool :=
  ('a' ≤ c && c ≤ 'z') || ('0' ≤ c && c ≤ '9')

def isDigitCh (c : Char) : Bool := '0' ≤ c && c ≤ '9'

def digitVal (c : Char) : Nat := c.toNat - 48

/-! ### List-of-char string primitives (JS `toLowerCase`, `trim`, replaces) -/

/-- JS `String.prototype.trim` on the character list. -/
def trimChars (cs : List Char) : List Char :=
  ((cs.dropWhile isWs).reverse.dropWhile isWs).reverse

/-- The `[^a-z0-9\s]` to space replacement applied to one character
(whitespace is left as is; the replacement only rewrites non-whitespace
non-alphanumeric characters to a space). -/
def stripCh (c : Char) : Char :=
  if isLowerAlnum c then c else if isWs c then c else ' '

/-- The `\s+` to single space replacement: every maximal run of
whitespace characters becomes one plain space. -/
def collapseWs : List Char → List Char
  | [] => []
  | [c] => if isWs c then [' '] else [c]
  | a :: b :: t =>
    if isWs a && isWs b then collapseWs (b :: t)
    else if isWs a then ' ' :: collapseWs (b :: t)
    else a :: collapseWs (b :: t)

/-- JS `toLowerCase` (ASCII model). -/
def lowerChars (cs : List Char) : List Char := cs.map Char.toLower

/-! ### normalizeText / normalizeTitle / compact (src/unnamed/part_001 lines 12-32) -/

/-- Embeds `normalizeText`: lowercase, trim, rewrite the curly-quote
variants (a no-op for the final result since the straight quotes are
themselves stripped to spaces by the following replace, so the model
omits that step), strip `[^a-z0-9\s]` to spaces, collapse whitespace
runs.  Note the source does not re-trim at the end, so the result can
carry one leading/trailing space. -/
def normalizeText (value : String) : String :=
  if value = "" then ""
  else String.mk (collapseWs ((trimChars (lowerChars value.data)).map stripCh))

/-- Splits a character list on spaces, dropping empty fragments; used to
model the word-boundary article removal of `normalizeTitle`. -/
def splitSpAux : List Char → List Char → List (List Char)
  | [], acc => if acc = [] then [] else [acc.reverse]
  | c :: t, acc =>
    if c = ' ' then
      (if acc = [] then splitSpAux t [] else acc.reverse :: splitSpAux t [])
    else splitSpAux t (c :: acc)

def splitSp (cs : List Char) : List (List Char) := splitSpAux cs []

/-- Joins words with single spaces. -/
def joinSp : List (List Char) → List Char
  | [] => []
  | [w] => w
  | w :: ws => w ++ ' ' :: joinSp ws

def isArticle (w : List Char) : Bool :=
  w = ['t', 'h', 'e'] || w = ['a'] || w = ['a', 'n']

/-- Embeds `normalizeTitle`: `normalizeText` then
`.replace(/\b(the|a|an)\b/g, ' ').replace(/\s+/g, ' ').trim()`.  On the
output of `normalizeText` every character is a lowercase alphanumeric or
a space, so `\b`-delimited article occurrences are exactly the
space-separated tokens `the`, `a`, `an`, and the replace-collapse-trim
chain is the same as dropping those tokens and re-joining the remaining
tokens with single spaces. -/
def normalizeTitle (title : String) : String :=
  String.mk (joinSp ((splitSp (normalizeText title).data).filter (fun w => !isArticle w)))

/-- Embeds `compact`: `normalizeText` then remove all whitespace. -/
def compact (value : String) : String :=
  String.mk ((normalizeText value).data.filter (fun c => !isWs c))

/-! ### Decimal printing for the `${...}` template literals -/

/-- Decimal digits with fuel (the fuel only bounds the digit count, so
`n + 1` is always enough). -/
def natToStrAux : Nat → Nat → List Char
  | 0, _ => []
  | fuel + 1, n =>
    if n < 10 then [Nat.digitChar n]
    else natToStrAux fuel (n / 10) ++ [Nat.digitChar (n % 10)]

/-- Decimal digits of a natural number, as JS `String(n)` produces for a
non-negative integer. -/
def natToStr (n : Nat) : String :=
  String.mk (natToStrAux (n + 1) n)

/-- JS `String(n).padStart(2, '0')`. -/
def pad2 (n : Nat) : String :=
  if n < 10 then "0" ++ natToStr n else natToStr n

/-! ### normalizeTimeKey (src/unnamed/part_001 lines 58-72) -/

/-- Matches the tail `(?::(\d{2}))?\s*(am|pm)?$` of the time regex,
returning the minute (0 when the group is absent, as `Number(m[2] ||
'0')`) and the meridiem (`some true` = pm). -/
def timeRest (cs : List Char) : Option (Nat × Option Bool) :=
  let step : Nat × List Char :=
    match cs with
    | ':' :: x :: y :: rest =>
      if isDigitCh x && isDigitCh y then (10 * digitVal x + digitVal y, rest)
      else (0, cs)
    | _ => (0, cs)
  let cs3 := step.2.dropWhile isWs
  match cs3 with
  | [] => some (step.1, none)
  | ['a', 'm'] => some (step.1, some false)
  | ['p', 'm'] => some (step.1, some true)
  | _ => none

/-- Matches `^(\d{1,2})(?::(\d{2}))?\s*(am|pm)?$`, with the greedy
two-digit hour attempt backtracking to one digit as the JS engine does. -/
def timeParse (cs : List Char) : Option (Nat × Nat × Option Bool) :=
  match cs with
  | [] => none
  | [a] => if isDigitCh a then some (digitVal a, 0, none) else none
  | a :: b :: rest =>
    if isDigitCh a && isDigitCh b then
      match timeRest rest with
      | some p => some (10 * digitVal a + digitVal b, p.1, p.2)
      | none => (timeRest (b :: rest)).map (fun p => (digitVal a, p.1, p.2))
    else if isDigitCh a then
      (timeRest (b :: rest)).map (fun p => (digitVal a, p.1, p.2))
    else none

/-- Embeds `normalizeTimeKey`: lower, trim, drop periods, try the
`H[:MM][am|pm]` pattern (to 24-hour `HH:MM`), else `compact` of the
prepared string. -/
def normalizeTimeKey (value : String) : String :=
  if value = "" then ""
  else
    let raw := String.mk ((trimChars (lowerChars value.data)).filter (fun c => c ≠ '.'))
    match timeParse raw.data with
    | none => compact raw
    | some (h, mi, ap) =>
      let hour :=
        if ap = some true && h < 12 then h + 12
        else if ap = some false && h = 12 then 0
        else h
      pad2 hour ++ ":" ++ pad2 mi

/-! ### normalizeDateKey (src/unnamed/part_001 lines 34-56) -/

/-- Host environment of the JS runtime: the behaviour of
`new Date(string)` (as observed through
`getFullYear/getMonth+1/getDate`, `none` when the result is `NaN`) and
`new Date().getFullYear()`. -/
structure JsEnv where
  dateParse : String → Option (Nat × Nat × Nat)
  curYear : Nat

def isSepCh (c : Char) : Bool := c = '/' || c = '-'

def digitsToNat (cs : List Char) : Nat :=
  cs.foldl (fun n c => 10 * n + digitVal c) 0

/-- Matches the optional year tail: a slash-or-dash separator followed
by two to four digits up to the end of input, or nothing. -/
def mdyTail (cs : List Char) : Option (Option Nat) :=
  match cs with
  | [] => some none
  | s :: ys =>
    if isSepCh s && ys.all isDigitCh && decide (2 ≤ ys.length) && decide (ys.length ≤ 4) then
      some (some (digitsToNat ys))
    else none

/-- Matches `(\d{1,2})` then the year tail, with greedy backtracking on
the day digits. -/
def mdyAfterSep (cs : List Char) : Option (Nat × Option Nat) :=
  match cs with
  | [] => none
  | [a] => if isDigitCh a then some (digitVal a, none) else none
  | a :: b :: rest =>
    if !isDigitCh a then none
    else if isDigitCh b then
      match mdyTail rest with
      | some y => some (10 * digitVal a + digitVal b, y)
      | none =>
        match mdyTail (b :: rest) with
        | some y => some (digitVal a, y)
        | none => none
    else
      match mdyTail (b :: rest) with
      | some y => some (digitVal a, y)
      | none => none

/-- Matches the full month-day-year pattern of `normalizeDateKey`: one
or two digits, a slash-or-dash separator, one or two digits, then the
optional year tail, anchored at both ends.  Returns month, day and the
optional year group. -/
def mdyParse (cs : List Char) : Option (Nat × Nat × Option Nat) :=
  match cs with
  | a :: b :: rest =>
    if isDigitCh a && isDigitCh b then
      match rest with
      | s :: rest2 =>
        if isSepCh s then
          (mdyAfterSep rest2).map (fun p => (10 * digitVal a + digitVal b, p.1, p.2))
        else none
      | [] => none
    else if isDigitCh a && isSepCh b then
      (mdyAfterSep rest).map (fun p => (digitVal a, p.1, p.2))
    else none
  | _ => none

/-- Embeds `normalizeDateKey`: direct `new Date` parse formatted
`Y-MM-DD`; else the `M/D[/YY[YY]]` pattern with current-year default and
two-digit years moved to 20xx; else `compact` of the trimmed input. -/
def normalizeDateKey (env : JsEnv) (value : String) : String :=
  if value = "" then ""
  else
    let raw := String.mk (trimChars value.data)
    match env.dateParse raw with
    | some (y, m, d) => natToStr y ++ "-" ++ pad2 m ++ "-" ++ pad2 d
    | none =>
      match mdyParse raw.data with
      | some (mo, dy, yOpt) =>
        let year0 := yOpt.getD env.curYear
        let year := if year0 < 100 then year0 + 2000 else year0
        natToStr year ++ "-" ++ pad2 mo ++ "-" ++ pad2 dy
      | none => compact raw

/-! ### Structural facts about the normalization layer -/

theorem ws_char_cases (c : Char) (h : isWs c = true) :
    c = ' ' ∨ c = '\t' ∨ c = '\n' ∨ c = '\r' ∨ c = '\x0b' ∨ c = '\x0c' := by
  simp only [isWs, Bool.or_eq_true, decide_eq_true_eq] at h
  tauto

theorem alnum_not_ws (c : Char) (h : isLowerAlnum c = true) : isWs c = false := by
  cases hw : isWs c
  · rfl
  · exfalso
    rcases ws_char_cases c hw with h' | h' | h' | h' | h' | h' <;> subst h' <;>
      exact absurd h (by decide)

theorem alnum_toLower (c : Char) (h : isLowerAlnum c = true) : c.toLower = c := by
  simp only [isLowerAlnum, Bool.or_eq_true, Bool.and_eq_true, decide_eq_true_eq] at h
  unfold Char.toLower
  rw [if_neg]
  rcases h with ⟨h1, h2⟩ | ⟨h1, h2⟩
  · have h1' : 97 ≤ c.val.toNat := h1
    have h2' : c.val.toNat ≤ 122 := h2
    simp only [Char.toNat, not_and]
    omega
  · have h1' : 48 ≤ c.val.toNat := h1
    have h2' : c.val.toNat ≤ 57 := h2
    simp only [Char.toNat, not_and]
    omega

theorem alnum_stripCh (c : Char) (h : isLowerAlnum c = true) : stripCh c = c := by
  simp [stripCh, h]

theorem stripCh_chars (c : Char) :
    isLowerAlnum (stripCh c) = true ∨ isWs (stripCh c) = true := by
  unfold stripCh
  by_cases h1 : isLowerAlnum c = true
  · rw [if_pos h1]; exact Or.inl h1
  · rw [if_neg h1]
    by_cases h2 : isWs c = true
    · rw [if_pos h2]; exact Or.inr h2
    · rw [if_neg h2]; exact Or.inr (by decide)

theorem collapseWs_chars : ∀ l : List Char,
    (∀ c ∈ l, isLowerAlnum c = true ∨ isWs c = true) →
    ∀ c ∈ collapseWs l, isLowerAlnum c = true ∨ c = ' '
  | [] => by simp [collapseWs]
  | [a] => by
    intro h c hc
    by_cases ha : isWs a = true
    · simp only [collapseWs, if_pos ha, List.mem_singleton] at hc
      exact Or.inr hc
    · simp only [collapseWs, if_neg ha, List.mem_singleton] at hc
      subst hc
      rcases h c (by simp) with h' | h'
      · exact Or.inl h'
      · exact absurd h' ha
  | a :: b :: t => by
    intro h c hc
    have ih := collapseWs_chars (b :: t)
      (fun c hc => h c (List.mem_cons_of_mem _ hc)) c
    by_cases h1 : isWs a = true <;> by_cases h2 : isWs b = true <;>
      simp only [collapseWs, h1, h2, Bool.and_self, Bool.and_false, Bool.false_and,
        Bool.and_true, Bool.true_and, if_true, if_false, Bool.false_eq_true] at hc
    · exact ih hc
    · rcases List.mem_cons.mp hc with rfl | hc'
      · exact Or.inr rfl
      · exact ih hc'
    · rcases List.mem_cons.mp hc with rfl | hc'
      · rcases h c (by simp) with h' | h'
        · exact Or.inl h'
        · exact absurd h' h1
      · exact ih hc'
    · rcases List.mem_cons.mp hc with rfl | hc'
      · rcases h c (by simp) with h' | h'
        · exact Or.inl h'
        · exact absurd h' h1
      · exact ih hc'

theorem chars_of_normalizeText (v : String) :
    ∀ c ∈ (normalizeText v).data, isLowerAlnum c = true ∨ c = ' ' := by
  intro c hc
  unfold normalizeText at hc
  by_cases hv : v = ""
  · rw [if_pos hv] at hc
    simp at hc
  · rw [if_neg hv] at hc
    have hc' : c ∈ collapseWs ((trimChars (lowerChars v.data)).map stripCh) := hc
    refine collapseWs_chars _ ?_ c hc'
    intro d hd
    rcases List.mem_map.mp hd with ⟨e, _, rfl⟩
    exact stripCh_chars e

theorem splitSpAux_words : ∀ (cs acc : List Char), (∀ c ∈ acc, c ≠ ' ') →
    ∀ w ∈ splitSpAux cs acc, w ≠ [] ∧ ∀ c ∈ w, c ≠ ' ' ∧ (c ∈ cs ∨ c ∈ acc)
  | [], acc => by
    intro hacc w hw
    by_cases h : acc = []
    · simp [splitSpAux, h] at hw
    · simp only [splitSpAux, if_neg h, List.mem_singleton] at hw
      subst hw
      refine ⟨by simpa using h, ?_⟩
      intro c hc
      have hc' := List.mem_reverse.mp hc
      exact ⟨hacc c hc', Or.inr hc'⟩
  | c0 :: t, acc => by
    intro hacc w hw
    by_cases hsp : c0 = ' '
    · simp only [splitSpAux, if_pos hsp] at hw
      by_cases h : acc = []
      · rw [if_pos h] at hw
        have := splitSpAux_words t [] (by simp) w hw
        refine ⟨this.1, fun c hc => ⟨(this.2 c hc).1, ?_⟩⟩
        rcases (this.2 c hc).2 with h' | h'
        · exact Or.inl (List.mem_cons_of_mem _ h')
        · simp at h'
      · rw [if_neg h] at hw
        rcases List.mem_cons.mp hw with rfl | hw'
        · refine ⟨by simpa using h, ?_⟩
          intro c hc
          have hc' := List.mem_reverse.mp hc
          exact ⟨hacc c hc', Or.inr hc'⟩
        · have := splitSpAux_words t [] (by simp) w hw'
          refine ⟨this.1, fun c hc => ⟨(this.2 c hc).1, ?_⟩⟩
          rcases (this.2 c hc).2 with h' | h'
          · exact Or.inl (List.mem_cons_of_mem _ h')
          · simp at h'
    · simp only [splitSpAux, if_neg hsp] at hw
      have := splitSpAux_words t (c0 :: acc)
        (by
          intro c hc
          rcases List.mem_cons.mp hc with rfl | h'
          · exact hsp
          · exact hacc c h') w hw
      refine ⟨this.1, fun c hc => ⟨(this.2 c hc).1, ?_⟩⟩
      rcases (this.2 c hc).2 with h' | h'
      · exact Or.inl (List.mem_cons_of_mem _ h')
      · rcases List.mem_cons.mp h' with rfl | h''
        · exact Or.inl (List.mem_cons_self _ _)
        · exact Or.inr h''

theorem splitSp_words (cs : List Char) :
    ∀ w ∈ splitSp cs, w ≠ [] ∧ ∀ c ∈ w, c ≠ ' ' ∧ c ∈ cs := by
  intro w hw
  have := splitSpAux_words cs [] (by simp) w hw
  refine ⟨this.1, fun c hc => ⟨(this.2 c hc).1, ?_⟩⟩
  rcases (this.2 c hc).2 with h' | h'
  · exact h'
  · simp at h'

/-- Well-formed token lists produced by `normalizeTitle`: nonempty words
of lowercase alphanumerics. -/
def GoodWords (ws : List (List Char)) : Prop :=
  ∀ w ∈ ws, w ≠ [] ∧ ∀ c ∈ w, isLowerAlnum c = true

theorem mem_joinSp : ∀ (ws : List (List Char)) (c : Char),
    c ∈ joinSp ws → (∃ w ∈ ws, c ∈ w) ∨ c = ' '
  | [], c => by simp [joinSp]
  | [w], c => by
    intro h
    simp only [joinSp] at h
    exact Or.inl ⟨w, by simp, h⟩
  | w :: w2 :: ws, c => by
    intro h
    simp only [joinSp] at h
    rcases List.mem_append.mp h with h' | h'
    · exact Or.inl ⟨w, by simp, h'⟩
    · rcases List.mem_cons.mp h' with rfl | h''
      · exact Or.inr rfl
      · rcases mem_joinSp (w2 :: ws) c h'' with ⟨w', hw', hc⟩ | h3
        · exact Or.inl ⟨w', List.mem_cons_of_mem _ hw', hc⟩
        · exact Or.inr h3

theorem joinSp_append_one : ∀ (ws : List (List Char)) (w : List Char), ws ≠ [] →
    joinSp (ws ++ [w]) = joinSp ws ++ ' ' :: w
  | [], w => by intro h; exact absurd rfl h
  | [v], w => by intro _; simp [joinSp]
  | v :: v2 :: ws, w => by
    intro _
    have ih := joinSp_append_one (v2 :: ws) w (by simp)
    show v ++ ' ' :: joinSp ((v2 :: ws) ++ [w]) = (v ++ ' ' :: joinSp (v2 :: ws)) ++ ' ' :: w
    rw [ih]
    simp

theorem reverse_joinSp : ∀ ws : List (List Char),
    (joinSp ws).reverse = joinSp ((ws.map List.reverse).reverse)
  | [] => by simp [joinSp]
  | [w] => by simp [joinSp]
  | w :: w2 :: ws => by
    have ih := reverse_joinSp (w2 :: ws)
    have hne : ((w2 :: ws).map List.reverse).reverse ≠ [] := by simp
    rw [show joinSp (w :: w2 :: ws) = w ++ ' ' :: joinSp (w2 :: ws) from rfl]
    rw [show (w :: w2 :: ws).map List.reverse
        = w.reverse :: (w2 :: ws).map List.reverse from rfl]
    rw [List.reverse_cons, joinSp_append_one _ _ hne, ← ih,
      List.reverse_append, List.reverse_cons]
    simp [List.append_assoc]

theorem goodWords_rev (ws : List (List Char)) (h : GoodWords ws) :
    GoodWords ((ws.map List.reverse).reverse) := by
  intro w hw
  rw [List.mem_reverse] at hw
  rcases List.mem_map.mp hw with ⟨v, hv, rfl⟩
  obtain ⟨h1, h2⟩ := h v hv
  exact ⟨by simpa using h1, fun c hc => h2 c (List.mem_reverse.mp hc)⟩

theorem map_id_of_mem {α : Type} (l : List α) (f : α → α) (h : ∀ a ∈ l, f a = a) :
    l.map f = l := by
  induction l with
  | nil => rfl
  | cons a t ih =>
    simp only [List.map_cons]
    rw [h a (by simp), ih (fun x hx => h x (by simp [hx]))]

theorem joinSp_cons_shape (c : Char) (w' : List Char) (ws : List (List Char)) :
    ∃ rest, joinSp ((c :: w') :: ws) = c :: rest := by
  cases ws with
  | nil => exact ⟨w', by simp [joinSp]⟩
  | cons v vs => exact ⟨w' ++ ' ' :: joinSp (v :: vs), by simp [joinSp]⟩

theorem dropWhile_joinSp (ws : List (List Char)) (h : GoodWords ws) :
    (joinSp ws).dropWhile isWs = joinSp ws := by
  cases ws with
  | nil => simp [joinSp]
  | cons w ws' =>
    obtain ⟨hne, hch⟩ := h w (by simp)
    cases w with
    | nil => exact absurd rfl hne
    | cons c w' =>
      obtain ⟨rest, hshape⟩ := joinSp_cons_shape c w' ws'
      rw [hshape, List.dropWhile_cons,
        if_neg (by simp [alnum_not_ws c (hch c (by simp))])]

theorem trimChars_joinSp (ws : List (List Char)) (h : GoodWords ws) :
    trimChars (joinSp ws) = joinSp ws := by
  unfold trimChars
  rw [dropWhile_joinSp ws h, reverse_joinSp ws,
    dropWhile_joinSp _ (goodWords_rev ws h), ← reverse_joinSp ws, List.reverse_reverse]

/-- No two adjacent whitespace characters. -/
def pairsOk : List Char → Bool
  | a :: b :: t => !(isWs a && isWs b) && pairsOk (b :: t)
  | _ => true

theorem collapseWs_id : ∀ l : List Char,
    (∀ c ∈ l, isWs c = true → c = ' ') → pairsOk l = true → collapseWs l = l
  | [] => by intro _ _; rfl
  | [a] => by
    intro h1 _
    by_cases ha : isWs a = true
    · have := h1 a (by simp) ha
      simp [collapseWs, ha, this]
    · simp [collapseWs, ha]
  | a :: b :: t => by
    intro h1 h2
    simp only [pairsOk, Bool.and_eq_true, Bool.not_eq_true'] at h2
    have ih := collapseWs_id (b :: t)
      (fun c hc => h1 c (List.mem_cons_of_mem _ hc)) h2.2
    by_cases ha : isWs a = true
    · have hb : isWs b = false := by
        cases hb : isWs b
        · rfl
        · rw [ha, hb] at h2; simp at h2
      have ha' : a = ' ' := h1 a (by simp) ha
      simp only [collapseWs, ha, hb, Bool.and_false, if_true, if_false,
        Bool.false_eq_true, ih]
      rw [ha']
    · simp [collapseWs, ha, ih]

theorem pairsOk_append_word : ∀ (w l : List Char),
    (∀ c ∈ w, isWs c = false) → pairsOk (w ++ l) = pairsOk l
  | [], l => by simp
  | [a], l => by
    intro h
    cases l with
    | nil => simp [pairsOk]
    | cons b t => simp [pairsOk, h a (by simp)]
  | a :: a2 :: w, l => by
    intro h
    have ih := pairsOk_append_word (a2 :: w) l
      (fun c hc => h c (List.mem_cons_of_mem _ hc))
    simp only [List.cons_append] at ih ⊢
    rw [show pairsOk (a :: (a2 :: (w ++ l))) = (!(isWs a && isWs a2) && pairsOk (a2 :: (w ++ l))) from rfl]
    rw [ih, h a (by simp)]
    simp

theorem pairsOk_joinSp : ∀ ws : List (List Char), GoodWords ws → pairsOk (joinSp ws) = true
  | [] => by intro _; rfl
  | [w] => by
    intro h
    obtain ⟨_, hch⟩ := h w (by simp)
    have := pairsOk_append_word w [] (fun c hc => alnum_not_ws c (hch c hc))
    simpa [joinSp] using this
  | w :: w2 :: ws => by
    intro h
    obtain ⟨hne, hch⟩ := h w (by simp)
    obtain ⟨hne2, hch2⟩ := h w2 (by simp)
    have ih := pairsOk_joinSp (w2 :: ws) (fun v hv => h v (List.mem_cons_of_mem _ hv))
    simp only [joinSp]
    rw [pairsOk_append_word w _ (fun c hc => alnum_not_ws c (hch c hc))]
    cases w2 with
    | nil => exact absurd rfl hne2
    | cons c w2' =>
      obtain ⟨rest, hshape⟩ := joinSp_cons_shape c w2' ws
      rw [hshape]
      rw [show pairsOk (' ' :: c :: rest) = (!(isWs ' ' && isWs c) && pairsOk (c :: rest)) from rfl]
      rw [alnum_not_ws c (hch2 c (by simp))]
      rw [← hshape, ih]
      simp

theorem normalizeText_fix (ws : List (List Char)) (h : GoodWords ws) :
    normalizeText (String.mk (joinSp ws)) = String.mk (joinSp ws) := by
  unfold normalizeText
  by_cases h0 : String.mk (joinSp ws) = ""
  · rw [if_pos h0]; exact h0.symm
  · rw [if_neg h0]
    have hmem : ∀ c ∈ joinSp ws, isLowerAlnum c = true ∨ c = ' ' := by
      intro c hc
      rcases mem_joinSp ws c hc with ⟨w, hw, hcw⟩ | rfl
      · exact Or.inl ((h w hw).2 c hcw)
      · exact Or.inr rfl
    have e0 : (String.mk (joinSp ws)).data = joinSp ws := rfl
    rw [e0]
    have e1 : lowerChars (joinSp ws) = joinSp ws := by
      refine map_id_of_mem _ _ ?_
      intro c hc
      rcases hmem c hc with h' | rfl
      · exact alnum_toLower c h'
      · decide
    rw [show lowerChars (joinSp ws) = joinSp ws from e1]
    rw [trimChars_joinSp ws h]
    have e2 : (joinSp ws).map stripCh = joinSp ws := by
      refine map_id_of_mem _ _ ?_
      intro c hc
      rcases hmem c hc with h' | rfl
      · exact alnum_stripCh c h'
      · decide
    rw [e2]
    rw [collapseWs_id (joinSp ws)
      (by
        intro c hc hw
        rcases hmem c hc with h' | rfl
        · exact absurd hw (by simp [alnum_not_ws c h'])
        · rfl)
      (pairsOk_joinSp ws h)]

theorem splitSpAux_shift : ∀ (w cs acc : List Char), (∀ c ∈ w, c ≠ ' ') →
    splitSpAux (w ++ cs) acc = splitSpAux cs (w.reverse ++ acc)
  | [], cs, acc => by simp
  | a :: w, cs, acc => by
    intro h
    have ih := splitSpAux_shift w cs (a :: acc)
      (fun c hc => h c (List.mem_cons_of_mem _ hc))
    show splitSpAux (a :: (w ++ cs)) acc = splitSpAux cs ((a :: w).reverse ++ acc)
    have e : splitSpAux (a :: (w ++ cs)) acc =
        if a = ' ' then
          (if acc = [] then splitSpAux (w ++ cs) []
           else acc.reverse :: splitSpAux (w ++ cs) [])
        else splitSpAux (w ++ cs) (a :: acc) := rfl
    rw [e, if_neg (h a (by simp)), ih, List.reverse_cons, List.append_assoc]
    rfl

theorem splitSp_joinSp : ∀ ws : List (List Char),
    (∀ w ∈ ws, w ≠ [] ∧ ∀ c ∈ w, c ≠ ' ') → splitSp (joinSp ws) = ws
  | [] => by intro _; rfl
  | [w] => by
    intro h
    obtain ⟨hne, hch⟩ := h w (by simp)
    unfold splitSp
    rw [show joinSp [w] = w ++ [] by simp [joinSp], splitSpAux_shift w [] [] hch]
    have e : splitSpAux ([] : List Char) (w.reverse ++ []) =
        if (w.reverse ++ []) = [] then [] else [(w.reverse ++ []).reverse] := rfl
    rw [e, if_neg (by simpa using hne)]
    simp
  | w :: w2 :: ws => by
    intro h
    obtain ⟨hne, hch⟩ := h w (by simp)
    have ih := splitSp_joinSp (w2 :: ws) (fun v hv => h v (List.mem_cons_of_mem _ hv))
    unfold splitSp at ih ⊢
    rw [show joinSp (w :: w2 :: ws) = w ++ ' ' :: joinSp (w2 :: ws) from rfl]
    rw [splitSpAux_shift w (' ' :: joinSp (w2 :: ws)) [] hch]
    have e : splitSpAux (' ' :: joinSp (w2 :: ws)) (w.reverse ++ []) =
        if (' ' : Char) = ' ' then
          (if (w.reverse ++ []) = [] then splitSpAux (joinSp (w2 :: ws)) []
           else (w.reverse ++ []).reverse :: splitSpAux (joinSp (w2 :: ws)) [])
        else splitSpAux (joinSp (w2 :: ws)) (' ' :: (w.reverse ++ [])) := rfl
    rw [e, if_pos rfl, if_neg (by simpa using hne), ih]
    simp

/-! ### Claim C9: normalization idempotence -/

/-- Counterexample to C9 as stated: `normalizeText` is not idempotent
(the source collapses whitespace after trimming, so a trailing
punctuation character leaves a trailing space that a second application
removes), and `normalizeTimeKey` is not idempotent (compacting a
non-matching input can produce a string that the time pattern then
matches). -/
theorem c9_counterexample :
    normalizeText (normalizeText "a!") ≠ normalizeText "a!" ∧
    normalizeTimeKey (normalizeTimeKey "4; pm") ≠ normalizeTimeKey "4; pm" := by
  constructor <;> decide

/-- C9 (amended): title normalization is idempotent — for all titles T,
`normalizeTitle (normalizeTitle T) = normalizeTitle T`.  (Text and
time-key normalization are not idempotent, see the counterexample; the
date-key function additionally depends on the host's `Date` parser.) -/
theorem c9_normalizeTitle_idempotent (s : String) :
    normalizeTitle (normalizeTitle s) = normalizeTitle s := by
  have hwords := splitSp_words (normalizeText s).data
  have hchars := chars_of_normalizeText s
  set ts := (splitSp (normalizeText s).data).filter (fun w => !isArticle w) with hts
  have hsub : ∀ w ∈ ts, w ∈ splitSp (normalizeText s).data := by
    intro w hw
    exact List.mem_of_mem_filter hw
  have hnosp : ∀ w ∈ ts, w ≠ [] ∧ ∀ c ∈ w, c ≠ ' ' := by
    intro w hw
    obtain ⟨h1, h2⟩ := hwords w (hsub w hw)
    exact ⟨h1, fun c hc => (h2 c hc).1⟩
  have hgood : GoodWords ts := by
    intro w hw
    obtain ⟨h1, h2⟩ := hwords w (hsub w hw)
    refine ⟨h1, fun c hc => ?_⟩
    rcases hchars c (h2 c hc).2 with h' | h'
    · exact h'
    · exact absurd h' (h2 c hc).1
  show normalizeTitle (String.mk (joinSp ts)) = String.mk (joinSp ts)
  unfold normalizeTitle
  rw [normalizeText_fix ts hgood]
  rw [show (String.mk (joinSp ts)).data = joinSp ts from rfl]
  rw [splitSp_joinSp ts hnosp]
  rw [List.filter_eq_self.mpr (fun w hw => by
    rw [hts] at hw
    exact (List.mem_filter.mp hw).2)]

/-! ### pickUrgency (src/unnamed/part_001 lines 7 and 91-93) -/

/-- Embeds the `URGENCY_ORDER` table; `none` models the JS `undefined`
returned for keys outside the table. -/
def urgencyOrder (u : String) : Option Nat :=
  if u = "low" then some 0
  else if u = "medium" then some 1
  else if u = "high" then some 2
  else none

/-- JS `>=` on possibly-undefined numbers: any comparison involving
`undefined` is false. -/
def jsGeOpt : Option Nat → Option Nat → Bool
  | some a, some b => decide (b ≤ a)
  | _, _ => false

/-- Embeds `pickUrgency`. -/
def pickUrgency (a b : String) : String :=
  if jsGeOpt (urgencyOrder a) (urgencyOrder b) then a else b

/-- Severity of an urgency string (0 for unknown keys). -/
def sevNat (u : String) : Nat := (urgencyOrder u).getD 0

/-- C8: for valid urgencies the merged urgency is the higher-severity
of the two under high > medium > low, a merge never lowers the urgency,
`pickUrgency` is commutative (in particular on distinct urgencies), and
merging low with high yields high in either argument order. -/
theorem c8_pickUrgency_escalation (a b : String)
    (ha : a = "low" ∨ a = "medium" ∨ a = "high")
    (hb : b = "low" ∨ b = "medium" ∨ b = "high") :
    sevNat (pickUrgency a b) = max (sevNat a) (sevNat b) ∧
    sevNat a ≤ sevNat (pickUrgency a b) ∧
    pickUrgency a b = pickUrgency b a ∧
    pickUrgency "low" "high" = "high" ∧
    pickUrgency "high" "low" = "high" := by
  rcases ha with rfl | rfl | rfl <;> rcases hb with rfl | rfl | rfl <;> decide

/-- Witness for C8 at urgencies low and high. -/
theorem c8_pickUrgency_escalation_witness :
    sevNat (pickUrgency "low" "high") = max (sevNat "low") (sevNat "high") ∧
    sevNat "low" ≤ sevNat (pickUrgency "low" "high") ∧
    pickUrgency "low" "high" = pickUrgency "high" "low" ∧
    pickUrgency "low" "high" = "high" ∧
    pickUrgency "high" "low" = "high" :=
  c8_pickUrgency_escalation "low" "high" (Or.inl rfl) (Or.inr (Or.inr rfl))

/-! ### External duplicate resolver gate
(src/unnamed/part_001 lines 9, 254-307 and the call site 483-498) -/

def DEDUPE_CONFIDENCE_THRESHOLD : Rat := 0.72

/-- Parsed JSON body of a resolver response after the source's
coercions: `mergeWithId` is `parsed?.mergeWithId || null` (so `none`
covers null, missing and falsy ids), `confidence` is
`Number(parsed?.confidence || 0)` and `confFinite` is
`Number.isFinite(confidence)`. -/
structure ResolverResponse where
  mergeWithId : Option String
  confidence : Rat
  confFinite : Bool

/-- Outcome of the network call plus JSON parse in
`resolveDuplicateWithLLM`: `fail` covers every transport error
(`!response.ok`), rejected promise, and `JSON.parse` exception. -/
inductive LLMOutcome where
  | fail : LLMOutcome
  | ok : ResolverResponse → LLMOutcome

/-- Embeds `resolveDuplicateWithLLM` over the candidate id list: empty
candidates short-circuit to no merge before any call; a failure is a
thrown exception (`Except.error`); otherwise the three gates of the
source run in order (truthy id, finite confidence at least the
threshold, id offered among the candidates). -/
def resolveDuplicateWithLLM (outcome : LLMOutcome) (candidateIds : List String) :
    Except Unit (Option (String × Rat)) :=
  if candidateIds.isEmpty then .ok none
  else
    match outcome with
    | .fail => .error ()
    | .ok resp =>
      .ok (match resp.mergeWithId with
        | none => none
        | some i =>
          if !resp.confFinite || decide (resp.confidence < DEDUPE_CONFIDENCE_THRESHOLD) then
            none
          else if !(candidateIds.contains i) then none
          else some (i, resp.confidence))

/-- Embeds the ingestion handler's try/catch around the resolver call
 (lines 483-498): an exception is caught and logged, leaving
`mergeIdFromLLM` null, so the request never fails because of the
resolver. -/
def llmResolutionFromOutcome (outcome : LLMOutcome) (candidateIds : List String) :
    Option String :=
  match resolveDuplicateWithLLM outcome candidateIds with
  | .error _ => none
  | .ok none => none
  | .ok (some (i, _)) => some i

/-- C6: a merge is accepted only when the response carries that id, the
confidence is a finite number at least 0.72, and the id is one of the
offered candidates; a transport/parse failure yields no merge and is
absorbed by the call site rather than surfacing. -/
theorem c6_resolver_gating (ids : List String) :
    llmResolutionFromOutcome .fail ids = none ∧
    (∀ (resp : ResolverResponse) (i : String),
      llmResolutionFromOutcome (.ok resp) ids = some i →
        resp.mergeWithId = some i ∧ resp.confFinite = true ∧
        DEDUPE_CONFIDENCE_THRESHOLD ≤ resp.confidence ∧ i ∈ ids) ∧
    (∀ (outcome : LLMOutcome) (i : String),
      llmResolutionFromOutcome outcome ids = some i → i ∈ ids) := by
  have hfail : llmResolutionFromOutcome .fail ids = none := by
    unfold llmResolutionFromOutcome resolveDuplicateWithLLM
    by_cases h : ids.isEmpty <;> simp [h]
  have main : ∀ (resp : ResolverResponse) (i : String),
      llmResolutionFromOutcome (.ok resp) ids = some i →
        resp.mergeWithId = some i ∧ resp.confFinite = true ∧
        DEDUPE_CONFIDENCE_THRESHOLD ≤ resp.confidence ∧ i ∈ ids := by
    intro resp i h
    unfold llmResolutionFromOutcome resolveDuplicateWithLLM at h
    by_cases hempty : ids.isEmpty
    · simp [hempty] at h
    · rw [if_neg hempty] at h
      cases hm : resp.mergeWithId with
      | none => simp [hm] at h
      | some j =>
        simp only [hm] at h
        by_cases hg : (!resp.confFinite ||
            decide (resp.confidence < DEDUPE_CONFIDENCE_THRESHOLD)) = true
        · rw [if_pos hg] at h
          simp at h
        · rw [if_neg hg] at h
          by_cases hc : ids.contains j = true
          · rw [if_neg (by rw [hc]; decide)] at h
            simp only [Bool.or_eq_true, Bool.not_eq_true', decide_eq_true_eq,
              not_or, not_lt] at hg
            simp only [Option.some.injEq] at h
            have hj : j = i := by
              by_contra hne
              simp [hne] at h
            subst hj
            refine ⟨rfl, ?_, hg.2, List.mem_of_elem_eq_true hc⟩
            cases hfin : resp.confFinite
            · exact absurd hfin hg.1
            · rfl
          · rw [if_pos (by
              simp only [Bool.not_eq_true] at hc
              rw [hc]
              decide)] at h
            simp at h
  refine ⟨hfail, main, ?_⟩
  intro outcome i h
  cases outcome with
  | fail => rw [hfail] at h; exact absurd h (by simp)
  | ok resp => exact (main resp i h).2.2.2

/-- Witness for C6 at a concrete accepted response. -/
theorem c6_resolver_gating_witness :
    (⟨some "a", 0.8, true⟩ : ResolverResponse).mergeWithId = some "a" ∧
    DEDUPE_CONFIDENCE_THRESHOLD ≤ (0.8 : Rat) ∧ ("a" : String) ∈ ["a"] := by
  have hlt : ¬((0.8 : Rat) < DEDUPE_CONFIDENCE_THRESHOLD) := by
    unfold DEDUPE_CONFIDENCE_THRESHOLD
    norm_num
  have h := (c6_resolver_gating ["a"]).2.1 ⟨some "a", 0.8, true⟩ "a" (by
    unfold llmResolutionFromOutcome resolveDuplicateWithLLM
    simp [hlt])
  exact ⟨h.1, h.2.2.1, h.2.2.2⟩

/-! ### Dashboard item model (src/server/routes/dashboardRoutes.js)

An item's date string is parsed by `parseItemDate` through the JS
`Date` machinery.  For the section classifier only the position of the
parsed moment relative to the local start of today matters, so the
parse result is modelled as an optional `PDate`: a day index (days
relative to an arbitrary epoch, so that today is some integer `t`,
tomorrow `t + 1`) plus a time-of-day offset.  `dateStr = ""` is a null
date (`parseItemDate` returns null before attempting any parse); for a
non-empty string the `pdate` field carries the parse outcome. -/

structure PDate where
  day : Int
  tod : Nat
  deriving DecidableEq

structure DItem where
  id : String
  type : String
  title : String
  dateStr : String
  timeStr : String
  urgency : String
  pdate : Option PDate
  deriving DecidableEq

/-- Embeds `parseItemDate` (the early `!raw` return; the parse itself is
the item's modelled `pdate`). -/
def parseItemDate (i : DItem) : Option PDate :=
  if i.dateStr = "" then none else i.pdate

/-- Lexicographic comparison of two moments, as JS `Date` comparison. -/
def pLt (a b : PDate) : Bool :=
  decide (a.day < b.day) || (decide (a.day = b.day) && decide (a.tod < b.tod))

def startOfToday (t : Int) : PDate := ⟨t, 0⟩

def startOfTomorrow (t : Int) : PDate := ⟨t + 1, 0⟩

/-- Embeds `isSameDay` against a midnight reference. -/
def sameDay (a b : PDate) : Bool := decide (a.day = b.day)

/-- Embeds `isPastEvent` for today-index `t`. -/
def isPastEvent (t : Int) (i : DItem) : Bool :=
  i.type == "event" &&
    (match parseItemDate i with
     | none => false
     | some d => pLt d (startOfToday t))

/-- Embeds `isOverdueDeadline`. -/
def isOverdueDeadline (t : Int) (i : DItem) : Bool :=
  i.type == "deadline" &&
    (match parseItemDate i with
     | none => false
     | some d => pLt d (startOfToday t))

/-- Embeds `isTodayItem`. -/
def isTodayItem (t : Int) (i : DItem) : Bool :=
  match parseItemDate i with
  | none => false
  | some d => sameDay d (startOfToday t)

/-- Embeds `isTomorrowItem`. -/
def isTomorrowItem (t : Int) (i : DItem) : Bool :=
  match parseItemDate i with
  | none => false
  | some d => sameDay d (startOfTomorrow t)

/-- Embeds `isFutureItem` (`d > startOfTomorrow()`). -/
def isFutureItem (t : Int) (i : DItem) : Bool :=
  match parseItemDate i with
  | none => false
  | some d => pLt (startOfTomorrow t) d

/-- Embeds `classifyDefaultSection` (dashboardRoutes.js lines 263-272). -/
def classifyDefaultSection (t : Int) (i : DItem) : Option String :=
  if isPastEvent t i then none
  else if isTodayItem t i then some "Today"
  else if isTomorrowItem t i then some "Tomorrow"
  else if isFutureItem t i && (i.type == "event" || i.type == "deadline") then some "Coming Up"
  else if i.type == "action" then some "To-dos"
  else if i.type == "deadline" && isOverdueDeadline t i then some "To-dos"
  else if i.type == "deadline" then some "Coming Up"
  else some "Other"

/-! ### mapSectionTitle and normalizeDashboardSections -/

def hasPre : List Char → List Char → Bool
  | [], _ => true
  | _ :: _, [] => false
  | a :: as, b :: bs => a == b && hasPre as bs

def hasSub (needle : List Char) : List Char → Bool
  | [] => needle.isEmpty
  | c :: t => hasPre needle (c :: t) || hasSub needle t

/-- JS `String.prototype.includes`. -/
def strHas (hay pat : String) : Bool := hasSub pat.data hay.data

/-- Embeds `mapSectionTitle` (lines 274-282). -/
def mapSectionTitle (title : String) : Option String :=
  let t := String.mk (lowerChars title.data)
  if strHas t "today" then some "Today"
  else if strHas t "tomorrow" then some "Tomorrow"
  else if strHas t "coming up" || strHas t "upcoming" || strHas t "this week" then some "Coming Up"
  else if strHas t "to-do" || strHas t "todo" || strHas t "task" || strHas t "action" then some "To-dos"
  else if strHas t "other" || strHas t "reference" || strHas t "info" then some "Other"
  else none

/-- The identity key used by `normalizeDashboardSections`:
`item.id` or the title-date-time fallback template for falsy ids. -/
def itemKey (i : DItem) : String :=
  if i.id ≠ "" then i.id else i.title ++ "|" ++ i.dateStr ++ "|" ++ i.timeStr

structure DSection where
  title : String
  items : List DItem
  deriving DecidableEq

def sectionOrder : List String := ["Today", "Tomorrow", "Coming Up", "To-dos", "Other"]

/-- The five ordered buckets of `normalizeDashboardSections`. -/
structure Buckets where
  today : List DItem
  tomorrow : List DItem
  comingUp : List DItem
  todos : List DItem
  other : List DItem
  deriving DecidableEq

def emptyBuckets : Buckets := ⟨[], [], [], [], []⟩

/-- `buckets.get(title)` (`[]` models `undefined` for foreign titles). -/
def bGet (b : Buckets) (t : String) : List DItem :=
  if t = "Today" then b.today
  else if t = "Tomorrow" then b.tomorrow
  else if t = "Coming Up" then b.comingUp
  else if t = "To-dos" then b.todos
  else if t = "Other" then b.other
  else []

/-- `buckets.get(target)?.push(item)`: appends when the title is one of
the five bucket names, otherwise does nothing (optional chaining on
`undefined`). -/
def bPush (b : Buckets) (t : String) (x : DItem) : Buckets :=
  if t = "Today" then { b with today := b.today ++ [x] }
  else if t = "Tomorrow" then { b with tomorrow := b.tomorrow ++ [x] }
  else if t = "Coming Up" then { b with comingUp := b.comingUp ++ [x] }
  else if t = "To-dos" then { b with todos := b.todos ++ [x] }
  else if t = "Other" then { b with other := b.other ++ [x] }
  else b

/-- The target reassignments of the first pass (lines 340-345).  The
source mutates `target` through three `if` statements whose conditions
test the fixed `mappedTitle`; since a string equals at most one of
`Today`/`Tomorrow`/`Coming Up`, at most one of them fires, which the
if-chain reproduces. -/
def pass1Remap (t : Int) (mapped : String) (i : DItem) : String :=
  if mapped == "Today" && !isTodayItem t i then
    (classifyDefaultSection t i).getD "Other"
  else if mapped == "Tomorrow" && !isTomorrowItem t i then
    (classifyDefaultSection t i).getD "Other"
  else if mapped == "Coming Up" &&
      (isTodayItem t i || isTomorrowItem t i || isOverdueDeadline t i) then
    (classifyDefaultSection t i).getD "Other"
  else mapped

/-- The final target including the overdue-deadline displacement
(line 346): `Coming Up` never retains an overdue deadline. -/
def pass1Target (t : Int) (mapped : String) (i : DItem) : String :=
  if pass1Remap t mapped i == "Coming Up" && isOverdueDeadline t i then "To-dos"
  else pass1Remap t mapped i

/-- One item of the first pass over the proposed sections: skip when
the key was seen or the item is a past event, otherwise mark the key
seen and push into the computed target bucket. -/
def pass1Step (t : Int) (mapped : String) (st : Buckets × List String) (i : DItem) :
    Buckets × List String :=
  if itemKey i ∈ st.2 then st
  else if isPastEvent t i then st
  else (bPush st.1 (pass1Target t mapped i) i, itemKey i :: st.2)

/-- One proposed section of the first pass; a falsy title skips the
section (the non-array items guard is vacuous in the typed model). -/
def pass1Section (t : Int) (st : Buckets × List String) (s : DSection) :
    Buckets × List String :=
  if s.title = "" then st
  else s.items.foldl (pass1Step t ((mapSectionTitle s.title).getD "Other")) st

/-- One item of the second pass (lines 354-361): an item not yet seen
and not a past event is injected into its deterministic bucket. -/
def pass2Step (t : Int) (st : Buckets × List String) (i : DItem) :
    Buckets × List String :=
  if itemKey i ∈ st.2 then st
  else if isPastEvent t i then st
  else
    match classifyDefaultSection t i with
    | none => st
    | some tgt => (bPush st.1 tgt i, itemKey i :: st.2)

def dedupeByIdGo (seen : List String) : List DItem → List DItem
  | [] => []
  | i :: t =>
    if i.id = "" then i :: dedupeByIdGo seen t
    else if i.id ∈ seen then dedupeByIdGo seen t
    else i :: dedupeByIdGo (i.id :: seen) t

/-- Embeds `dedupeById` (lines 235-243): keeps the first occurrence of
every truthy id, passes id-less items through. -/
def dedupeById (items : List DItem) : List DItem := dedupeByIdGo [] items

/-- Embeds `normalizeDashboardSections` (lines 327-366). -/
def normalizeDashboardSections (t : Int) (sections : List DSection)
    (allItems : List DItem) : List DSection :=
  let st1 := sections.foldl (pass1Section t) (emptyBuckets, [])
  let st2 := allItems.foldl (pass2Step t) st1
  (sectionOrder.map (fun title => DSection.mk title (dedupeById (bGet st2.1 title)))).filter
    (fun s => decide (0 < s.items.length))

/-! ### Claim C2: deterministic classification rules -/

/-- Modelled from the spec: section 4.9's ordered rules 1-6 exactly as
written ("1. Event dated strictly before today → excluded … 5. Action
type, or deadline dated before today (overdue) → Todos. 6. Everything
else → Other."), using the code's section strings for the spec's bucket
names (`ComingUp` = "Coming Up", `Todos` = "To-dos"). -/
def specClassifyOriginal (t : Int) (i : DItem) : Option String :=
  if isPastEvent t i then none
  else if isTodayItem t i then some "Today"
  else if isTomorrowItem t i then some "Tomorrow"
  else if isFutureItem t i && (i.type == "event" || i.type == "deadline") then some "Coming Up"
  else if i.type == "action" || isOverdueDeadline t i then some "To-dos"
  else some "Other"

/-- Modelled from the spec as amended: rules 1-5 unchanged, but a
deadline matched by none of them (one with no parseable date) goes to
`Coming Up`; everything else unmatched goes to `Other`. -/
def specClassifyAmended (t : Int) (i : DItem) : Option String :=
  if isPastEvent t i then none
  else if isTodayItem t i then some "Today"
  else if isTomorrowItem t i then some "Tomorrow"
  else if isFutureItem t i && (i.type == "event" || i.type == "deadline") then some "Coming Up"
  else if i.type == "action" || isOverdueDeadline t i then some "To-dos"
  else if i.type == "deadline" then some "Coming Up"
  else some "Other"

/-- Counterexample to C2 as stated: a deadline whose date does not
parse matches none of rules 1-5, so the spec's rule 6 sends it to
`Other`, but `classifyDefaultSection` returns `Coming Up` for it. -/
theorem c2_counterexample :
    classifyDefaultSection 0 ⟨"x1", "deadline", "renew passport", "soon", "", "medium", none⟩
      = some "Coming Up" ∧
    specClassifyOriginal 0 ⟨"x1", "deadline", "renew passport", "soon", "", "medium", none⟩
      = some "Other" ∧
    isPastEvent 0 ⟨"x1", "deadline", "renew passport", "soon", "", "medium", none⟩ = false ∧
    isTodayItem 0 ⟨"x1", "deadline", "renew passport", "soon", "", "medium", none⟩ = false ∧
    isTomorrowItem 0 ⟨"x1", "deadline", "renew passport", "soon", "", "medium", none⟩ = false ∧
    isFutureItem 0 ⟨"x1", "deadline", "renew passport", "soon", "", "medium", none⟩ = false ∧
    isOverdueDeadline 0 ⟨"x1", "deadline", "renew passport", "soon", "", "medium", none⟩ = false := by
  decide

theorem overdue_type (t : Int) (i : DItem) (h : isOverdueDeadline t i = true) :
    i.type = "deadline" := by
  unfold isOverdueDeadline at h
  simp only [Bool.and_eq_true, beq_iff_eq] at h
  exact h.1

/-- C2 (amended): classification of a non-retired record follows the
spec's ordered rules 1-5 as written, while a record matched by none of
them is sent to `Other` unless it is a deadline (necessarily one with
no parseable date), which is sent to `Coming Up`. -/
theorem c2_classify_follows_amended_rules (t : Int) (i : DItem) :
    classifyDefaultSection t i = specClassifyAmended t i := by
  unfold classifyDefaultSection specClassifyAmended
  cases h1 : isPastEvent t i with
  | true => simp [h1]
  | false =>
  simp only [h1, Bool.false_eq_true, if_false]
  cases h2 : isTodayItem t i with
  | true => simp [h2]
  | false =>
  simp only [h2, Bool.false_eq_true, if_false]
  cases h3 : isTomorrowItem t i with
  | true => simp [h3]
  | false =>
  simp only [h3, Bool.false_eq_true, if_false]
  cases h4 : (isFutureItem t i && (i.type == "event" || i.type == "deadline")) with
  | true => simp [h4]
  | false =>
  simp only [h4, Bool.false_eq_true, if_false]
  cases h5 : (i.type == "action") with
  | true => simp [h5]
  | false =>
  cases h6 : isOverdueDeadline t i with
  | true =>
    have hd : (i.type == "deadline") = true := by
      simp [overdue_type t i h6]
    simp [h5, h6, hd]
  | false =>
    cases h7 : (i.type == "deadline") with
    | true => simp [h5, h6, h7]
    | false => simp [h5, h6, h7]

/-! ### Claim C1: section coverage of normalizeDashboardSections -/

theorem classify_mem_order (t : Int) (i : DItem) (s : String)
    (h : classifyDefaultSection t i = some s) : s ∈ sectionOrder := by
  unfold classifyDefaultSection at h
  split_ifs at h <;> simp_all [sectionOrder]

theorem classify_getD_mem (t : Int) (i : DItem) :
    (classifyDefaultSection t i).getD "Other" ∈ sectionOrder := by
  cases h : classifyDefaultSection t i with
  | none => simp [sectionOrder]
  | some s => simpa using classify_mem_order t i s h

theorem classify_none_iff (t : Int) (i : DItem) :
    classifyDefaultSection t i = none ↔ isPastEvent t i = true := by
  unfold classifyDefaultSection
  split_ifs with h <;> simp [h]

theorem mapTitle_getD_mem (x : String) :
    (mapSectionTitle x).getD "Other" ∈ sectionOrder := by
  simp only [mapSectionTitle]
  split_ifs <;> simp [sectionOrder]

theorem pass1Remap_mem (t : Int) (mapped : String) (i : DItem)
    (h : mapped ∈ sectionOrder) : pass1Remap t mapped i ∈ sectionOrder := by
  unfold pass1Remap
  split_ifs <;> first | exact classify_getD_mem t i | exact h

theorem pass1Target_mem (t : Int) (mapped : String) (i : DItem)
    (h : mapped ∈ sectionOrder) : pass1Target t mapped i ∈ sectionOrder := by
  unfold pass1Target
  split_ifs
  · simp [sectionOrder]
  · exact pass1Remap_mem t mapped i h

/-- All bucket contents in the fixed section order. -/
def allB (b : Buckets) : List DItem :=
  b.today ++ b.tomorrow ++ b.comingUp ++ b.todos ++ b.other

theorem allB_bPush_countP (p : DItem → Bool) (b : Buckets) (tit : String) (x : DItem)
    (h : tit ∈ sectionOrder) :
    (allB (bPush b tit x)).countP p
      = (allB b).countP p + (if p x then 1 else 0) := by
  simp only [sectionOrder, List.mem_cons, List.not_mem_nil, or_false] at h
  rcases h with rfl | rfl | rfl | rfl | rfl <;>
    simp [bPush, allB, List.countP_append, List.countP_cons] <;> omega

theorem allB_bPush_sub (b : Buckets) (tit : String) (x y : DItem)
    (h : y ∈ allB (bPush b tit x)) : y ∈ allB b ∨ y = x := by
  unfold bPush at h
  split_ifs at h <;> simp [allB] at h ⊢ <;> tauto

/-- State invariant of the two bucket-filling passes: each key is held
by exactly one bucket entry when it is marked seen, by none otherwise. -/
def stInv (st : Buckets × List String) : Prop :=
  ∀ k : String,
    (allB st.1).countP (fun x => itemKey x == k) = (if k ∈ st.2 then 1 else 0)

theorem stInv_empty : stInv (emptyBuckets, []) := by
  intro k
  simp [allB, emptyBuckets]

theorem stInv_push (st : Buckets × List String) (tgt : String) (i : DItem)
    (htgt : tgt ∈ sectionOrder) (hnew : itemKey i ∉ st.2) (h : stInv st) :
    stInv (bPush st.1 tgt i, itemKey i :: st.2) := by
  intro k
  rw [allB_bPush_countP _ _ _ _ htgt, h k]
  by_cases hk : k = itemKey i
  · subst hk
    simp [hnew]
  · have hne : (itemKey i == k) = false := by
      simp [Ne.symm hk]
    simp [hne, List.mem_cons, hk]

theorem pass1Step_inv (t : Int) (mapped : String) (hm : mapped ∈ sectionOrder)
    (st : Buckets × List String) (i : DItem) (h : stInv st) :
    stInv (pass1Step t mapped st i) := by
  unfold pass1Step
  split_ifs with h1 h2
  · exact h
  · exact h
  · exact stInv_push st _ i (pass1Target_mem t mapped i hm) h1 h

theorem pass2Step_inv (t : Int) (st : Buckets × List String) (i : DItem) (h : stInv st) :
    stInv (pass2Step t st i) := by
  unfold pass2Step
  split_ifs with h1 h2
  · exact h
  · exact h
  · cases hc : classifyDefaultSection t i with
    | none => exact h
    | some tgt => exact stInv_push st tgt i (classify_mem_order t i tgt hc) h1 h

theorem foldl_preserve {α β : Type} (P : β → Prop) (f : β → α → β) :
    ∀ (l : List α) (st : β), P st → (∀ st x, x ∈ l → P st → P (f st x)) →
      P (l.foldl f st)
  | [], st => by
    intro h _
    exact h
  | a :: l, st => by
    intro h hf
    exact foldl_preserve P f l (f st a) (hf st a (by simp) h)
      (fun st x hx hP => hf st x (List.mem_cons_of_mem _ hx) hP)

theorem pass1Section_inv (t : Int) (st : Buckets × List String) (s : DSection)
    (h : stInv st) : stInv (pass1Section t st s) := by
  unfold pass1Section
  split_ifs
  · exact h
  · exact foldl_preserve stInv _ s.items st h
      (fun st x _ hP => pass1Step_inv t _ (mapTitle_getD_mem s.title) st x hP)

theorem foldl_sub {α β : Type} (g : β → List String) (f : β → α → β)
    (hf : ∀ st x, g st ⊆ g (f st x)) :
    ∀ (l : List α) (st : β), g st ⊆ g (l.foldl f st)
  | [], _ => fun _ h => h
  | a :: l, st => fun _k hk =>
    foldl_sub g f hf l (f st a) (hf st a hk)

theorem pass1Step_seen_sub (t : Int) (m : String) (st : Buckets × List String)
    (i : DItem) : st.2 ⊆ (pass1Step t m st i).2 := by
  unfold pass1Step
  split_ifs
  · exact fun a ha => ha
  · exact fun a ha => ha
  · exact fun a ha => List.mem_cons_of_mem _ ha

theorem pass2Step_seen_sub (t : Int) (st : Buckets × List String)
    (i : DItem) : st.2 ⊆ (pass2Step t st i).2 := by
  unfold pass2Step
  split_ifs
  · exact fun a ha => ha
  · exact fun a ha => ha
  · cases hc : classifyDefaultSection t i with
    | none => exact fun a ha => ha
    | some tgt => exact fun a ha => List.mem_cons_of_mem _ ha

theorem pass2_seen (t : Int) :
    ∀ (l : List DItem) (st : Buckets × List String) (i : DItem),
      i ∈ l → isPastEvent t i = false →
      itemKey i ∈ (l.foldl (pass2Step t) st).2
  | [], st, i => by
    intro h _
    simp at h
  | a :: l, st, i => by
    intro hmem hpast
    rcases List.mem_cons.mp hmem with rfl | hmem'
    · have hstep : itemKey i ∈ (pass2Step t st i).2 := by
        unfold pass2Step
        split_ifs with h1 h2
        · exact h1
        · rw [hpast] at h2
          exact absurd h2 (by simp)
        · cases hc : classifyDefaultSection t i with
          | none =>
            exact absurd ((classify_none_iff t i).mp hc) (by simp [hpast])
          | some tgt => exact List.mem_cons_self _ _
      exact foldl_sub (fun st => st.2) (pass2Step t)
        (fun st x => pass2Step_seen_sub t st x) l _ hstep
    · exact pass2_seen t l (pass2Step t st a) i hmem' hpast

theorem pass1Step_notSeen (t : Int) (m : String) (st : Buckets × List String)
    (i : DItem) (k : String) (hk : k ∉ st.2)
    (hp : itemKey i = k → isPastEvent t i = true) :
    k ∉ (pass1Step t m st i).2 := by
  unfold pass1Step
  split_ifs with h1 h2
  · exact hk
  · exact hk
  · intro hmem
    rcases List.mem_cons.mp hmem with hkk | h'
    · exact h2 (hp hkk.symm)
    · exact hk h'

theorem pass2Step_notSeen (t : Int) (st : Buckets × List String)
    (i : DItem) (k : String) (hk : k ∉ st.2)
    (hp : itemKey i = k → isPastEvent t i = true) :
    k ∉ (pass2Step t st i).2 := by
  unfold pass2Step
  split_ifs with h1 h2
  · exact hk
  · exact hk
  · cases hc : classifyDefaultSection t i with
    | none => exact hk
    | some tgt =>
      intro hmem
      rcases List.mem_cons.mp hmem with hkk | h'
      · exact h2 (hp hkk.symm)
      · exact hk h'

theorem pass1Section_notSeen (t : Int) (st : Buckets × List String) (s : DSection)
    (k : String) (hk : k ∉ st.2)
    (hp : ∀ x ∈ s.items, itemKey x = k → isPastEvent t x = true) :
    k ∉ (pass1Section t st s).2 := by
  unfold pass1Section
  split_ifs
  · exact hk
  · exact foldl_preserve (fun st => k ∉ st.2) _ s.items st hk
      (fun st x hx h => pass1Step_notSeen t _ st x k h (hp x hx))

theorem pass1Step_prov (t : Int) (m : String) (st : Buckets × List String)
    (i : DItem) (Q : DItem → Prop) (hQ : Q i) (h : ∀ y ∈ allB st.1, Q y) :
    ∀ y ∈ allB (pass1Step t m st i).1, Q y := by
  unfold pass1Step
  split_ifs
  · exact h
  · exact h
  · intro y hy
    rcases allB_bPush_sub st.1 _ i y hy with h' | rfl
    · exact h y h'
    · exact hQ

theorem pass2Step_prov (t : Int) (st : Buckets × List String)
    (i : DItem) (Q : DItem → Prop) (hQ : Q i) (h : ∀ y ∈ allB st.1, Q y) :
    ∀ y ∈ allB (pass2Step t st i).1, Q y := by
  unfold pass2Step
  split_ifs
  · exact h
  · exact h
  · cases hc : classifyDefaultSection t i with
    | none => exact h
    | some tgt =>
      intro y hy
      rcases allB_bPush_sub st.1 _ i y hy with h' | rfl
      · exact h y h'
      · exact hQ

theorem pass1Section_prov (t : Int) (st : Buckets × List String) (s : DSection)
    (Q : DItem → Prop) (hQ : ∀ x ∈ s.items, Q x) (h : ∀ y ∈ allB st.1, Q y) :
    ∀ y ∈ allB (pass1Section t st s).1, Q y := by
  unfold pass1Section
  split_ifs
  · exact h
  · exact foldl_preserve (fun st => ∀ y ∈ allB st.1, Q y) _ s.items st h
      (fun st x hx hP => pass1Step_prov t _ st x Q (hQ x hx) hP)

theorem countP_congr_mem {α : Type} {p q : α → Bool} :
    ∀ l : List α, (∀ a ∈ l, p a = q a) → l.countP p = l.countP q
  | [] => by intro _; rfl
  | a :: l => by
    intro h
    rw [List.countP_cons, List.countP_cons, h a (by simp),
      countP_congr_mem l (fun x hx => h x (List.mem_cons_of_mem _ hx))]

theorem countP_sublist_le (p : DItem → Bool) (a b c : List DItem) :
    (a ++ b ++ c).countP p ≥ b.countP p := by
  simp [List.countP_append]
  omega

theorem dedupeGo_eq : ∀ (l : List DItem) (seen : List String),
    (∀ x ∈ l, x.id ≠ "" → x.id ∉ seen) →
    (∀ k : String, k ≠ "" → l.countP (fun z => z.id == k) ≤ 1) →
    dedupeByIdGo seen l = l
  | [], seen => by
    intro _ _
    rfl
  | x :: t, seen => by
    intro h1 h2
    have htail : ∀ (p : DItem → Bool), t.countP p ≤ (x :: t).countP p := by
      intro p
      rw [List.countP_cons]
      omega
    by_cases hid : x.id = ""
    · simp only [dedupeByIdGo, if_pos hid]
      rw [dedupeGo_eq t seen (fun z hz => h1 z (List.mem_cons_of_mem _ hz))
        (fun k hk => le_trans (htail _) (h2 k hk))]
    · simp only [dedupeByIdGo, if_neg hid, if_neg (h1 x (by simp) hid)]
      rw [dedupeGo_eq t (x.id :: seen)
        (by
          intro z hz hzne hmem
          rcases List.mem_cons.mp hmem with hzeq | h'
          · have hcnt : (x :: t).countP (fun z => z.id == x.id) ≥ 2 := by
              rw [List.countP_cons]
              have ht1 : 0 < t.countP (fun z => z.id == x.id) := by
                rw [List.countP_pos_iff]
                exact ⟨z, hz, by simp [hzeq]⟩
              simp only [beq_self_eq_true, if_pos]
              omega
            have := h2 x.id hid
            omega
          · exact h1 z (List.mem_cons_of_mem _ hz) hzne h')
        (fun k hk => le_trans (htail _) (h2 k hk))]

theorem join_count_filter (l : List DSection) (i : DItem) :
    (((l.filter (fun s => decide (0 < s.items.length))).map DSection.items).flatten).count i
      = ((l.map DSection.items).flatten).count i := by
  induction l with
  | nil => rfl
  | cons s l ih =>
    rw [List.filter_cons]
    by_cases h : 0 < s.items.length
    · rw [if_pos (by simpa using h)]
      simp only [List.map_cons, List.flatten_cons, List.count_append]
      rw [ih]
    · have hnil : s.items = [] := by
        cases he : s.items with
        | nil => rfl
        | cons a t => rw [he] at h; simp at h
      rw [if_neg (by simpa using h)]
      simp only [List.map_cons, List.flatten_cons, List.count_append, hnil]
      simpa using ih

theorem bGet_today (b : Buckets) : bGet b "Today" = b.today := rfl

theorem bGet_tomorrow (b : Buckets) : bGet b "Tomorrow" = b.tomorrow := rfl

theorem bGet_comingUp (b : Buckets) : bGet b "Coming Up" = b.comingUp := rfl

theorem bGet_todos (b : Buckets) : bGet b "To-dos" = b.todos := rfl

theorem bGet_other (b : Buckets) : bGet b "Other" = b.other := rfl

/-- C1: for a record list whose identity keys are distinct (as rows of
the item table are) and an arbitrary external section proposal whose
items are drawn from that list (as both call sites construct them),
every record that is not a past-dated event occurs exactly once across
the exposed sections of `normalizeDashboardSections`, and a past-dated
event occurs in none of them. -/
theorem c1_section_coverage (today : Int) (sections : List DSection)
    (allItems : List DItem)
    (hsub : ∀ s ∈ sections, ∀ x ∈ s.items, x ∈ allItems)
    (hnd : (allItems.map itemKey).Nodup) :
    ∀ i ∈ allItems,
      (((normalizeDashboardSections today sections allItems).map DSection.items).flatten).count i
        = if isPastEvent today i then 0 else 1 := by
  intro i hi
  have e : normalizeDashboardSections today sections allItems
      = (sectionOrder.map (fun title => DSection.mk title (dedupeById (bGet
          ((allItems.foldl (pass2Step today)
            (sections.foldl (pass1Section today) (emptyBuckets, []))).1) title)))).filter
        (fun s => decide (0 < s.items.length)) := rfl
  -- the final state and its facts
  set stf := allItems.foldl (pass2Step today)
    (sections.foldl (pass1Section today) (emptyBuckets, [])) with hstf
  have hinv : stInv stf := by
    rw [hstf]
    refine foldl_preserve stInv _ allItems _ ?_ (fun st x _ h => pass2Step_inv today st x h)
    exact foldl_preserve stInv _ sections _ stInv_empty
      (fun st s _ h => pass1Section_inv today st s h)
  have hprov : ∀ y ∈ allB stf.1, y ∈ allItems := by
    rw [hstf]
    refine foldl_preserve (fun st => ∀ y ∈ allB st.1, y ∈ allItems) _ allItems _ ?_
      (fun st x hx h => pass2Step_prov today st x _ hx h)
    refine foldl_preserve (fun st => ∀ y ∈ allB st.1, y ∈ allItems) _ sections _ ?_
      (fun st s hs h => pass1Section_prov today st s _ (hsub s hs) h)
    intro y hy
    simp [allB, emptyBuckets] at hy
  have hkey1 : ∀ k, (allB stf.1).countP (fun x => itemKey x == k) ≤ 1 := by
    intro k
    rw [hinv k]
    split <;> omega
  -- each bucket's nonempty ids occur at most once, so dedupeById is the identity
  have hbucket : ∀ bl, bl = stf.1.today ∨ bl = stf.1.tomorrow ∨ bl = stf.1.comingUp ∨
      bl = stf.1.todos ∨ bl = stf.1.other → dedupeById bl = bl := by
    intro bl hbl
    refine dedupeGo_eq bl [] (by simp) ?_
    intro k hk
    have hmono : bl.countP (fun z => z.id == k) ≤ bl.countP (fun x => itemKey x == k) := by
      refine List.countP_mono_left ?_
      intro z _ hz
      have hzk : z.id = k := by simpa using hz
      have : itemKey z = z.id := by
        unfold itemKey
        rw [if_pos (by rw [hzk]; exact hk)]
      simp [this, hzk]
    have hle : bl.countP (fun x => itemKey x == k) ≤ (allB stf.1).countP (fun x => itemKey x == k) := by
      rcases hbl with rfl | rfl | rfl | rfl | rfl <;>
        (simp only [allB, List.countP_append]; omega)
    exact le_trans hmono (le_trans hle (hkey1 k))
  -- count over the output equals count over the buckets
  have hout : (((normalizeDashboardSections today sections allItems).map DSection.items).flatten).count i
      = (allB stf.1).count i := by
    rw [e, join_count_filter]
    simp only [sectionOrder, List.map_cons, List.map_nil, List.flatten_cons,
      List.flatten_nil, List.count_append, List.append_nil]
    rw [bGet_today, bGet_tomorrow, bGet_comingUp, bGet_todos, bGet_other]
    rw [hbucket _ (Or.inl rfl), hbucket _ (Or.inr (Or.inl rfl)),
      hbucket _ (Or.inr (Or.inr (Or.inl rfl))),
      hbucket _ (Or.inr (Or.inr (Or.inr (Or.inl rfl)))),
      hbucket _ (Or.inr (Or.inr (Or.inr (Or.inr rfl))))]
    simp [allB, List.count_append]
  rw [hout]
  -- value count equals key count over the buckets
  have hcnt : (allB stf.1).count i
      = (allB stf.1).countP (fun x => itemKey x == itemKey i) := by
    rw [List.count_eq_countP]
    refine countP_congr_mem _ ?_
    intro x hx
    by_cases hxi : x = i
    · subst hxi
      simp
    · have hke : itemKey x ≠ itemKey i := by
        intro he
        exact hxi (List.inj_on_of_nodup_map hnd (hprov x hx) hi he)
      simp [hxi, hke]
  rw [hcnt, hinv (itemKey i)]
  cases hpast : isPastEvent today i with
  | false =>
    have hseen : itemKey i ∈ stf.2 := by
      rw [hstf]
      exact pass2_seen today allItems _ i hi hpast
    simp [hseen]
  | true =>
    have hnot : itemKey i ∉ stf.2 := by
      rw [hstf]
      refine foldl_preserve (fun st : Buckets × List String => itemKey i ∉ st.2)
        (pass2Step today) allItems _ ?_ ?_
      · refine foldl_preserve (fun st : Buckets × List String => itemKey i ∉ st.2)
          (pass1Section today) sections _ (by simp) ?_
        intro st s hs h
        refine pass1Section_notSeen today st s _ h ?_
        intro x hx hxk
        have hxi : x = i := List.inj_on_of_nodup_map hnd (hsub s hs x hx) hi hxk
        rw [hxi, hpast]
      · intro st x hx h
        refine pass2Step_notSeen today st x _ h ?_
        intro hxk
        have hxi : x = i := List.inj_on_of_nodup_map hnd hx hi hxk
        rw [hxi, hpast]
    simp [hnot]

/-- Witness for C1 at a concrete record list and section proposal. -/
theorem c1_section_coverage_witness :
    (((normalizeDashboardSections 0
        [⟨"stuff", [⟨"1", "event", "x", "d", "", "high", some ⟨0, 0⟩⟩]⟩]
        [⟨"1", "event", "x", "d", "", "high", some ⟨0, 0⟩⟩,
         ⟨"2", "action", "y", "", "", "low", none⟩]).map DSection.items).flatten).count
      ⟨"1", "event", "x", "d", "", "high", some ⟨0, 0⟩⟩
      = if isPastEvent 0 ⟨"1", "event", "x", "d", "", "high", some ⟨0, 0⟩⟩ then 0 else 1 :=
  c1_section_coverage 0
    [⟨"stuff", [⟨"1", "event", "x", "d", "", "high", some ⟨0, 0⟩⟩]⟩]
    [⟨"1", "event", "x", "d", "", "high", some ⟨0, 0⟩⟩,
     ⟨"2", "action", "y", "", "", "low", none⟩]
    (by decide) (by decide)
    ⟨"1", "event", "x", "d", "", "high", some ⟨0, 0⟩⟩ (by decide)

/-! ### Ingestion state machine (src/unnamed/part_001, first revision)

Records are rows of the `items` table; string columns use `""` for SQL
NULL (the JS layer writes `x || null`, and reads treat both alike).
The LLM batch-grouping step degrades to the identity on failure or
absence, which is the deterministic path modelled here (the candidate
list below is the post-grouping list); the LLM entity resolver is a
parameter (`ResolverOracle`) whose `none` answers cover both a decline
and the caught exception path. -/

structure Rec where
  id : Nat
  userId : Nat
  type : String
  title : String
  normalizedTitle : String
  canonicalKey : String
  date : String
  time : String
  endTime : String
  location : String
  description : String
  urgency : String
  category : String
  sourceHash : String
  sourceHashes : List String
  occurrenceCount : Nat
  rawText : String
  people : List String
  lastSeenAt : Nat
  dismissed : Bool
  deriving DecidableEq

/-- An incoming candidate of a POST /api/items batch.
`sourceHashList = some l` models an array-valued `source_hashes` field,
`none` any non-array value. -/
structure Cand where
  type : String
  title : String
  date : String
  time : String
  endTime : String
  location : String
  description : String
  urgency : String
  category : String
  sourceHash : String
  sourceHashList : Option (List String)
  rawText : String
  people : List String
  deriving DecidableEq

/-- `item.type || 'info'`. -/
def typeOf (c : Cand) : String := if c.type = "" then "info" else c.type

/-- Embeds `buildLooseTemporalKey` on explicit fields (the source also
applies it to row-shaped objects). -/
def buildLooseTemporalKey (env : JsEnv) (ty ti d tm : String) : String :=
  (if ty = "" then "info" else ty) ++ "|" ++ normalizeTitle ti ++ "|" ++
    normalizeDateKey env d ++ "|" ++ normalizeTimeKey tm

/-- Embeds `buildCanonicalKey`. -/
def buildCanonicalKey (env : JsEnv) (ty ti d tm loc : String) : String :=
  buildLooseTemporalKey env ty ti d tm ++ "|" ++ compact loc

/-- The loose key the fallback dedupe recomputes from a row's current
fields. -/
def rowLooseKey (env : JsEnv) (r : Rec) : String :=
  buildLooseTemporalKey env r.type r.title r.date r.time

/-- The alternation of the `actionSignals` regex. -/
def ACTION_SIGNALS : List String :=
  ["due", "deadline", "register", "registration", "payment", "pay", "submit",
   "bring", "rsvp", "pick up", "drop off", "meeting", "practice", "game",
   "flight", "trip", "appointment", "call", "follow up", "follow-up"]

def hasActionSignal (s : String) : Bool := ACTION_SIGNALS.any (fun kw => strHas s kw)

/-- Embeds `isLikelyRelevant`. -/
def isLikelyRelevant (c : Cand) : Bool :=
  if (String.mk (trimChars c.title.data)).length < 3 then false
  else
    let ty := typeOf c
    let hasTimeSignal := c.date != "" || c.time != "" || c.endTime != "" || c.location != ""
    let desc := normalizeText c.description
    if ty == "event" || ty == "deadline" then
      hasTimeSignal || hasActionSignal desc
    else if ty == "action" then
      hasActionSignal (normalizeText c.title ++ " " ++ desc) || hasTimeSignal
    else
      hasTimeSignal && hasActionSignal (normalizeText c.title ++ " " ++ desc)

/-- The source identifiers a candidate contributes to the batch's
reconciliation set (`Array.isArray(i.source_hashes) ?
i.source_hashes.filter(Boolean) : (i.source_hash ? [i.source_hash] : [])`). -/
def candSources (c : Cand) : List String :=
  match c.sourceHashList with
  | some l => l.filter (fun s => s != "")
  | none => if c.sourceHash != "" then [c.sourceHash] else []

/-- First-occurrence deduplication, as `[...new Set(l)]`. -/
def dedupFirst (l : List String) : List String :=
  l.foldl (fun acc x => if x ∈ acc then acc else acc ++ [x]) []

/-- The per-row effect of `detachSourceFromExistingItems`: rows of the
user that are active and reference the hash either retire (empty
remainder) or persist the shrunk set; all other rows are untouched. -/
def detachRec (userId : Nat) (sourceHash : String) (now : Nat) (r : Rec) : Rec :=
  if r.userId = userId ∧ r.dismissed = false ∧ sourceHash ∈ r.sourceHashes then
    let next := r.sourceHashes.filter (fun s => s != sourceHash)
    if next.isEmpty then
      { r with dismissed := true, occurrenceCount := 0, lastSeenAt := now }
    else
      { r with sourceHashes := next, occurrenceCount := next.length, lastSeenAt := now }
  else r

/-- Embeds `detachSourceFromExistingItems` (lines 309-341): the SELECT
picks exactly the rows the guard of `detachRec` accepts, and each is
updated in place. -/
def detachSourceFromExistingItems (userId : Nat) (sourceHash : String) (now : Nat)
    (recs : List Rec) : List Rec :=
  recs.map (detachRec userId sourceHash now)

structure Store where
  recs : List Rec
  nextId : Nat
  deriving DecidableEq

def isActiveFor (uid : Nat) (r : Rec) : Bool := r.userId == uid && !r.dismissed

/-- The exact-key lookup (`WHERE user_id AND NOT dismissed AND
canonical_key = $2 LIMIT 1`), modelled as the first matching row in
store order. -/
def findExact (uid : Nat) (key : String) (recs : List Rec) : Option Rec :=
  recs.find? (fun r => isActiveFor uid r && r.canonicalKey == key)

/-- Stable insertion sort by `last_seen_at DESC` (an earlier row stays
before a later row with the same timestamp). -/
def insertByLastSeen (r : Rec) : List Rec → List Rec
  | [] => [r]
  | x :: t => if r.lastSeenAt < x.lastSeenAt then x :: insertByLastSeen r t else r :: x :: t

def sortLastSeenDesc : List Rec → List Rec
  | [] => []
  | x :: t => insertByLastSeen x (sortLastSeenDesc t)

/-- The fallback-dedupe candidate query (type and normalized title,
`ORDER BY last_seen_at DESC LIMIT 20`); a blank normalized title is
passed as SQL NULL and matches nothing. -/
def looseCandidates (uid : Nat) (ty ntitle : String) (recs : List Rec) : List Rec :=
  if ntitle = "" then []
  else
    (sortLastSeenDesc (recs.filter
      (fun r => isActiveFor uid r && r.type == ty && r.normalizedTitle == ntitle))).take 20

/-- The `.find` over the loose candidates, recomputing each row's loose
key from its current fields. -/
def findLoose (env : JsEnv) (uid : Nat) (ty ntitle looseKey : String)
    (recs : List Rec) : Option Rec :=
  (looseCandidates uid ty ntitle recs).find? (fun r => rowLooseKey env r == looseKey)

/-- Deterministic matching: exact canonical key first, then the loose
temporal key among same-type same-title rows. -/
def deterministicExisting (env : JsEnv) (uid : Nat) (c : Cand) (recs : List Rec) :
    Option Rec :=
  match findExact uid (buildCanonicalKey env c.type c.title c.date c.time c.location) recs with
  | some r => some r
  | none => findLoose env uid (typeOf c) (normalizeTitle c.title)
      (buildLooseTemporalKey env c.type c.title c.date c.time) recs

/-- Stable insertion sort by occurrence count then recency, for the
resolver's candidate query. -/
def rankLt (a b : Rec) : Bool :=
  decide (a.occurrenceCount < b.occurrenceCount) ||
    (a.occurrenceCount == b.occurrenceCount && decide (a.lastSeenAt < b.lastSeenAt))

def insertByRank (r : Rec) : List Rec → List Rec
  | [] => [r]
  | x :: t => if rankLt r x then x :: insertByRank r t else r :: x :: t

def sortRankDesc : List Rec → List Rec
  | [] => []
  | x :: t => insertByRank x (sortRankDesc t)

/-- The resolver's candidate query (`type = $2 AND (normalized_title =
$3 OR date = $4 OR time = $5) ORDER BY occurrence_count DESC,
last_seen_at DESC LIMIT 30`); blank parameters are SQL NULL and match
nothing. -/
def llmCandidateRows (uid : Nat) (ty ntitle date time : String) (recs : List Rec) :
    List Rec :=
  (sortRankDesc (recs.filter (fun r => isActiveFor uid r && r.type == ty &&
    ((ntitle != "" && r.normalizedTitle == ntitle) ||
     (date != "" && r.date == date) ||
     (time != "" && r.time == time))))).take 30

/-- Behaviour of one resolver consultation: given the candidate and the
offered rows, an accepted merge id or none; `none` covers a decline,
the confidence/id gates, and the caught transport failure. -/
def ResolverOracle : Type := Cand → List Rec → Option Nat

/-- The always-declining oracle: the deterministic fallback mode. -/
def noResolver : ResolverOracle := fun _ _ => none

/-- The per-batch resolution cache key (type, normalized title, date
key, time key, compacted location). -/
def resolutionKeyOf (env : JsEnv) (c : Cand) : String :=
  typeOf c ++ "|" ++ normalizeTitle c.title ++ "|" ++ normalizeDateKey env c.date ++
    "|" ++ normalizeTimeKey c.time ++ "|" ++ compact c.location

def cacheLookup (cache : List (String × Option Nat)) (k : String) :
    Option (Option Nat) :=
  (cache.find? (fun p => p.1 == k)).map (fun p => p.2)

/-- The LLM-assisted resolution block (lines 444-515): consult the
per-batch cache, else query candidate rows, seed the deterministic
match in front when absent, consult the oracle and cache its answer. -/
def llmPhase (env : JsEnv) (oracle : ResolverOracle) (uid : Nat) (c : Cand)
    (existing : Option Rec) (recs : List Rec)
    (cache : List (String × Option Nat)) :
    Option Nat × List (String × Option Nat) :=
  let rkey := resolutionKeyOf env c
  match cacheLookup cache rkey with
  | some v => (v, cache)
  | none =>
    let rows0 := llmCandidateRows uid (typeOf c) (normalizeTitle c.title) c.date c.time recs
    let rows :=
      match existing with
      | some ex => if rows0.any (fun r => r.id == ex.id) then rows0 else ex :: rows0
      | none => rows0
    if rows.isEmpty then (none, (rkey, none) :: cache)
    else
      let d := oracle c rows
      (d, (rkey, d) :: cache)

/-- Re-fetch of the oracle's chosen id among the user's active rows. -/
def fetchById (uid : Nat) (i : Nat) (recs : List Rec) : Option Rec :=
  recs.find? (fun r => r.id == i && r.userId == uid && !r.dismissed)

/-- The description rule of the merge: the longer text, ties and the
`item.description || prev.description` fallback favouring the incoming
value (`(item.description || '').length >= (prev.description ||
'').length ? item.description || prev.description : prev.description`). -/
def jsMergeDesc (prevD incD : String) : String :=
  if prevD.length ≤ incD.length then (if incD = "" then prevD else incD) else prevD

/-- `COALESCE(incoming || null, stored)`. -/
def jsCoalesce (inc prev : String) : String := if inc ≠ "" then inc else prev

/-- `item.category || prev.category || 'other'`. -/
def jsCat (inc prevCat : String) : String :=
  if inc ≠ "" then inc else (if prevCat ≠ "" then prevCat else "other")

/-- `x || 'medium'`. -/
def jsUrg (u : String) : String := if u = "" then "medium" else u

/-- `[...new Set([...prev, ...incoming.filter(Boolean)])]`. -/
def mergePeopleJs (prev cp : List String) : List String :=
  dedupFirst (prev ++ cp.filter (fun p => p != ""))

/-- `[...new Set([...(prev.source_hashes || []), ...(item.source_hash ?
[item.source_hash] : [])])]`. -/
def mergeHashesJs (prev : List String) (sh : String) : List String :=
  dedupFirst (prev ++ (if sh ≠ "" then [sh] else []))

/-- Embeds the merge branch's UPDATE (lines 517-560). -/
def mergeRecord (prev : Rec) (c : Cand) (now : Nat) : Rec :=
  let mergedHashes := mergeHashesJs prev.sourceHashes c.sourceHash
  { prev with
    description := jsMergeDesc prev.description c.description,
    urgency := pickUrgency (jsUrg prev.urgency) (jsUrg c.urgency),
    date := jsCoalesce c.date prev.date,
    time := jsCoalesce c.time prev.time,
    endTime := jsCoalesce c.endTime prev.endTime,
    location := jsCoalesce c.location prev.location,
    category := jsCat c.category prev.category,
    rawText := jsCoalesce c.rawText prev.rawText,
    people := mergePeopleJs prev.people c.people,
    sourceHash := jsCoalesce c.sourceHash prev.sourceHash,
    sourceHashes := mergedHashes,
    occurrenceCount := if mergedHashes.length = 0 then 1 else mergedHashes.length,
    lastSeenAt := now }

/-- Embeds the insert branch (lines 564-594). -/
def insertRecord (env : JsEnv) (uid now : Nat) (c : Cand) (S : Store) : Store :=
  let srcs :=
    match c.sourceHashList with
    | some l => dedupFirst (l.filter (fun s => s != ""))
    | none => if c.sourceHash ≠ "" then [c.sourceHash] else []
  { recs := S.recs ++ [{
      id := S.nextId,
      userId := uid,
      type := typeOf c,
      title := c.title,
      normalizedTitle := normalizeTitle c.title,
      canonicalKey := buildCanonicalKey env c.type c.title c.date c.time c.location,
      date := c.date,
      time := c.time,
      endTime := c.endTime,
      location := c.location,
      description := c.description,
      urgency := if c.urgency = "" then "medium" else c.urgency,
      category := if c.category = "" then "other" else c.category,
      sourceHash := c.sourceHash,
      sourceHashes := srcs,
      occurrenceCount := if srcs.length = 0 then 1 else srcs.length,
      rawText := c.rawText,
      people := c.people,
      lastSeenAt := now,
      dismissed := false }],
    nextId := S.nextId + 1 }

structure IngestState where
  store : Store
  seen : List String
  cache : List (String × Option Nat)
  deriving DecidableEq

/-- The within-batch dedupe key (`source_hash || 'nosource'` plus the
loose temporal key). -/
def dkeyOf (env : JsEnv) (c : Cand) : String :=
  (if c.sourceHash ≠ "" then c.sourceHash else "nosource") ++ "|" ++
    buildLooseTemporalKey env c.type c.title c.date c.time

/-- The record the loop body merges into, together with the updated
cache: the deterministic match unless the (gated, cached) resolver
answer names an active record of the user. -/
def chosenExisting (env : JsEnv) (oracle : ResolverOracle) (uid : Nat) (c : Cand)
    (recs : List Rec) (cache : List (String × Option Nat)) :
    Option Rec × List (String × Option Nat) :=
  let existing0 := deterministicExisting env uid c recs
  let phase := llmPhase env oracle uid c existing0 recs cache
  ((match phase.1 with
    | some mid =>
      match fetchById uid mid recs with
      | some r => some r
      | none => existing0
    | none => existing0), phase.2)

/-- One candidate of the ingestion loop (lines 394-595): relevance
filter, within-batch dedupe, deterministic matching, LLM-assisted
override, then merge or insert. -/
def processCand (env : JsEnv) (oracle : ResolverOracle) (uid now : Nat)
    (st : IngestState) (c : Cand) : IngestState :=
  if !isLikelyRelevant c then st
  else if dkeyOf env c ∈ st.seen then st
  else
    match (chosenExisting env oracle uid c st.store.recs st.cache).1 with
    | some prev =>
      let recs' := st.store.recs.map
        (fun r => if r.id = prev.id then mergeRecord prev c now else r)
      { store := { recs := recs', nextId := st.store.nextId },
        seen := dkeyOf env c :: st.seen,
        cache := (chosenExisting env oracle uid c st.store.recs st.cache).2 }
    | none =>
      { store := insertRecord env uid now c st.store,
        seen := dkeyOf env c :: st.seen,
        cache := (chosenExisting env oracle uid c st.store.recs st.cache).2 }

/-- Embeds the POST /api/items handler: reject an empty batch with no
side effects, withdraw every batch source, then process the candidates
sequentially. -/
def ingestBatch (env : JsEnv) (oracle : ResolverOracle) (uid now : Nat)
    (items : List Cand) (S : Store) : Store :=
  if items.isEmpty then S
  else
    let srcs := dedupFirst ((items.map candSources).flatten)
    let recs1 := srcs.foldl (fun rs s => detachSourceFromExistingItems uid s now rs) S.recs
    (items.foldl (processCand env oracle uid now)
      { store := { recs := recs1, nextId := S.nextId }, seen := [], cache := [] }).store

/-! ### Claim C5: source withdrawal postcondition -/

/-- C5: withdrawal of a source identifier touches exactly the user's
active records referencing it; a touched record whose remaining set is
empty is retired with occurrence count zero, otherwise the shrunk set
is persisted with a matching occurrence count and refreshed
`lastSeenAt`; all other rows are untouched, identifying fields are
preserved, and after the withdrawal no active record of the user
references the identifier. -/
theorem c5_source_withdrawal (uid : Nat) (s : String) (now : Nat) (recs : List Rec) :
    (detachSourceFromExistingItems uid s now recs).length = recs.length ∧
    (∀ (j : Nat) (h1 : j < recs.length)
        (h2 : j < (detachSourceFromExistingItems uid s now recs).length),
      ((¬(((recs.get ⟨j, h1⟩).userId = uid ∧ (recs.get ⟨j, h1⟩).dismissed = false ∧
            s ∈ (recs.get ⟨j, h1⟩).sourceHashes)) →
          (detachSourceFromExistingItems uid s now recs).get ⟨j, h2⟩ = recs.get ⟨j, h1⟩) ∧
        (((recs.get ⟨j, h1⟩).userId = uid ∧ (recs.get ⟨j, h1⟩).dismissed = false ∧
            s ∈ (recs.get ⟨j, h1⟩).sourceHashes) →
          (let r := recs.get ⟨j, h1⟩
           let r' := (detachSourceFromExistingItems uid s now recs).get ⟨j, h2⟩
           let next := r.sourceHashes.filter (fun x => x != s)
           (next = [] → r'.dismissed = true ∧ r'.occurrenceCount = 0 ∧
             r'.lastSeenAt = now) ∧
           (next ≠ [] → r'.dismissed = false ∧ r'.sourceHashes = next ∧
             s ∉ r'.sourceHashes ∧ r'.occurrenceCount = r'.sourceHashes.length ∧
             r'.lastSeenAt = now) ∧
           r'.id = r.id ∧ r'.title = r.title ∧ r'.description = r.description ∧
           r'.canonicalKey = r.canonicalKey ∧ r'.date = r.date ∧
           r'.urgency = r.urgency)))) ∧
    (∀ r' ∈ detachSourceFromExistingItems uid s now recs,
      r'.userId = uid → r'.dismissed = false → s ∉ r'.sourceHashes) := by
  refine ⟨by simp [detachSourceFromExistingItems], ?_, ?_⟩
  · intro j h1 h2
    have hget : (detachSourceFromExistingItems uid s now recs).get ⟨j, h2⟩
        = detachRec uid s now (recs.get ⟨j, h1⟩) := by
      simp [detachSourceFromExistingItems]
    constructor
    · intro hcond
      rw [hget]
      unfold detachRec
      rw [if_neg hcond]
    · intro hcond
      rw [hget]
      unfold detachRec
      rw [if_pos hcond]
      set r := recs.get ⟨j, h1⟩ with hr
      intro next
      by_cases hemp : (r.sourceHashes.filter (fun x => x != s)).isEmpty = true
      · rw [if_pos hemp]
        refine ⟨fun _ => ⟨rfl, rfl, rfl⟩, fun hne => absurd ?_ hne, rfl, rfl, rfl, rfl, rfl, rfl⟩
        simpa [List.isEmpty_iff] using hemp
      · rw [if_neg hemp]
        refine ⟨fun he => absurd (by simp [List.isEmpty_iff, he]) hemp,
          fun _ => ⟨hcond.2.1, rfl, ?_, rfl, rfl⟩, rfl, rfl, rfl, rfl, rfl, rfl⟩
        intro hmem
        have := List.mem_filter.mp hmem
        simp at this
  · intro r' hr' hu hd
    rcases List.mem_map.mp hr' with ⟨r, _, rfl⟩
    unfold detachRec at hu hd ⊢
    by_cases hcond : r.userId = uid ∧ r.dismissed = false ∧ s ∈ r.sourceHashes
    · rw [if_pos hcond] at hd ⊢
      by_cases hemp : (r.sourceHashes.filter (fun x => x != s)).isEmpty = true
      · rw [if_pos hemp] at hd
        simp at hd
      · rw [if_neg hemp] at hd ⊢
        intro hmem
        have := List.mem_filter.mp hmem
        simp at this
    · rw [if_neg hcond] at hu hd ⊢
      intro hmem
      exact hcond ⟨hu, hd, hmem⟩

/-- Witness for C5 at a one-record store. -/
theorem c5_source_withdrawal_witness :
    (detachSourceFromExistingItems 1 "s1" 9
      [⟨0, 1, "event", "x", "x", "k", "", "", "", "", "", "high", "other", "s1",
        ["s1"], 1, "", [], 3, false⟩]).length = 1 ∧
    (0 : Nat) < 1 ∧
    (∀ r' ∈ detachSourceFromExistingItems 1 "s1" 9
      [⟨0, 1, "event", "x", "x", "k", "", "", "", "", "", "high", "other", "s1",
        ["s1"], 1, "", [], 3, false⟩],
      r'.userId = 1 → r'.dismissed = false → "s1" ∉ r'.sourceHashes) := by
  have h := c5_source_withdrawal 1 "s1" 9
    [⟨0, 1, "event", "x", "x", "k", "", "", "", "", "", "high", "other", "s1",
      ["s1"], 1, "", [], 3, false⟩]
  exact ⟨h.1, by decide, h.2.2⟩

/-! ### Claim C7: merge field postcondition -/

theorem string_eq_empty_of_length (s : String) (h : s.length = 0) : s = "" := by
  obtain ⟨l⟩ := s
  cases l with
  | nil => rfl
  | cons a t =>
    exfalso
    have h1 : ({ data := a :: t } : String).length = t.length + 1 := rfl
    omega

/-- C7: the merged description is the longer of the two texts with ties
won by the incoming candidate, and date, time, endTime, location and
category take the incoming value exactly when the incoming candidate
provides one, the existing value otherwise (for category provided the
stored value is non-null, which every stored record satisfies since
both insert and merge floor it at "other"). -/
theorem c7_merge_fields (prev : Rec) (c : Cand) (now : Nat) :
    (mergeRecord prev c now).description =
      (if prev.description.length ≤ c.description.length then c.description
       else prev.description) ∧
    (mergeRecord prev c now).date = (if c.date ≠ "" then c.date else prev.date) ∧
    (mergeRecord prev c now).time = (if c.time ≠ "" then c.time else prev.time) ∧
    (mergeRecord prev c now).endTime = (if c.endTime ≠ "" then c.endTime else prev.endTime) ∧
    (mergeRecord prev c now).location = (if c.location ≠ "" then c.location else prev.location) ∧
    (prev.category ≠ "" →
      (mergeRecord prev c now).category =
        (if c.category ≠ "" then c.category else prev.category)) := by
  refine ⟨?_, rfl, rfl, rfl, rfl, ?_⟩
  · show (if prev.description.length ≤ c.description.length then
        (if c.description = "" then prev.description else c.description)
      else prev.description) = _
    by_cases hle : prev.description.length ≤ c.description.length
    · rw [if_pos hle, if_pos hle]
      by_cases hce : c.description = ""
      · rw [if_pos hce, hce]
        rw [hce] at hle
        have h0 : ("" : String).length = 0 := rfl
        rw [h0] at hle
        exact string_eq_empty_of_length _ (Nat.le_zero.mp hle)
      · rw [if_neg hce]
    · rw [if_neg hle, if_neg hle]
  · intro hcat
    show (if c.category ≠ "" then c.category
        else (if prev.category ≠ "" then prev.category else "other")) = _
    by_cases hc : c.category ≠ ""
    · rw [if_pos hc, if_pos hc]
    · rw [if_neg hc, if_neg hc, if_pos hcat]

/-- Witness for C7 at concrete records. -/
theorem c7_merge_fields_witness :
    ((⟨0, 1, "event", "x", "x", "k", "", "", "", "", "short", "high", "school", "s1",
        ["s1"], 1, "", [], 3, false⟩ : Rec).category ≠ "") ∧
    ((mergeRecord
        ⟨0, 1, "event", "x", "x", "k", "", "", "", "", "short", "high", "school", "s1",
          ["s1"], 1, "", [], 3, false⟩
        ⟨"event", "x", "5/10", "", "", "", "a longer description", "low", "", "s2",
          none, "", []⟩ 7).description =
      (if ("short" : String).length ≤ ("a longer description" : String).length
       then "a longer description" else "short")) := by
  refine ⟨by decide, ?_⟩
  exact (c7_merge_fields
    ⟨0, 1, "event", "x", "x", "k", "", "", "", "", "short", "high", "school", "s1",
      ["s1"], 1, "", [], 3, false⟩
    ⟨"event", "x", "5/10", "", "", "", "a longer description", "low", "", "s2",
      none, "", []⟩ 7).1

/-! ### Claim C10: merges keep the stored canonical key stale -/

/-- `buildCanonicalKey` applied to a record's current fields. -/
def recCurrentKey (env : JsEnv) (r : Rec) : String :=
  buildCanonicalKey env r.type r.title r.date r.time r.location

/-- C10: a merge never updates the stored `canonicalKey`, even when
gap-filling changes the date/time/location fields the key is built
from; consequently the stored key can differ from `buildCanonicalKey`
of the current fields, and a later candidate bearing the key of the
updated fields does not exact-match the record. -/
theorem c10_merge_keeps_canonicalKey :
    (∀ (prev : Rec) (c : Cand) (now : Nat),
      (mergeRecord prev c now).canonicalKey = prev.canonicalKey) ∧
    ((mergeRecord
        ⟨0, 1, "event", "soccer", "soccer", "event|soccer|||", "", "", "", "", "",
          "medium", "other", "s1", ["s1"], 1, "", [], 3, false⟩
        ⟨"event", "soccer", "5/10", "", "", "", "", "", "", "s2", none, "", []⟩ 7).canonicalKey
      ≠ recCurrentKey ⟨fun _ => none, 2024⟩
        (mergeRecord
          ⟨0, 1, "event", "soccer", "soccer", "event|soccer|||", "", "", "", "", "",
            "medium", "other", "s1", ["s1"], 1, "", [], 3, false⟩
          ⟨"event", "soccer", "5/10", "", "", "", "", "", "", "s2", none, "", []⟩ 7)) ∧
    (findExact 1
      (buildCanonicalKey ⟨fun _ => none, 2024⟩ "event" "soccer" "5/10" "" "")
      [mergeRecord
        ⟨0, 1, "event", "soccer", "soccer", "event|soccer|||", "", "", "", "", "",
          "medium", "other", "s1", ["s1"], 1, "", [], 3, false⟩
        ⟨"event", "soccer", "5/10", "", "", "", "", "", "", "s2", none, "", []⟩ 7]
      = none) := by
  refine ⟨fun prev c now => rfl, by decide, by decide⟩

/-! ### Claim C3: record-state invariants over reachable states -/

/-- Store states reachable through the ingestion operations (insert of
an unmatched candidate, merge, source detachment all happen inside
`ingestBatch`), starting from an empty table. -/
inductive ReachableStore : Store → Prop where
  | init : ReachableStore ⟨[], 0⟩
  | step (S : Store) (env : JsEnv) (oracle : ResolverOracle) (uid now : Nat)
      (items : List Cand) : ReachableStore S →
      ReachableStore (ingestBatch env oracle uid now items S)

/-- Per-record occurrence invariant: an active record's occurrence
count is the size of its (duplicate-free) source set, floored at 1. -/
def occInvRec (r : Rec) : Prop :=
  r.dismissed = false →
    r.occurrenceCount = max 1 r.sourceHashes.length ∧ r.sourceHashes.Nodup

def occInv (S : Store) : Prop := ∀ r ∈ S.recs, occInvRec r

theorem dedupFirst_aux_nodup : ∀ (l acc : List String), acc.Nodup →
    (l.foldl (fun acc x => if x ∈ acc then acc else acc ++ [x]) acc).Nodup
  | [], acc => fun h => h
  | x :: t, acc => by
    intro h
    show (t.foldl (fun acc x => if x ∈ acc then acc else acc ++ [x])
      (if x ∈ acc then acc else acc ++ [x])).Nodup
    by_cases hx : x ∈ acc
    · rw [if_pos hx]
      exact dedupFirst_aux_nodup t acc h
    · rw [if_neg hx]
      refine dedupFirst_aux_nodup t (acc ++ [x]) ?_
      simp [List.nodup_append, h, hx]

theorem dedupFirst_nodup (l : List String) : (dedupFirst l).Nodup :=
  dedupFirst_aux_nodup l [] (by simp)

theorem ite_length_max (l : List String) :
    (if l.length = 0 then 1 else l.length) = max 1 l.length := by
  cases l with
  | nil => simp
  | cons a t =>
    simp only [List.length_cons, if_neg (by omega : ¬(t.length + 1 = 0))]
    omega

theorem mergeRecord_occInv (prev : Rec) (c : Cand) (now : Nat) :
    occInvRec (mergeRecord prev c now) := by
  intro _
  constructor
  · show (if (dedupFirst _).length = 0 then 1 else (dedupFirst _).length) = _
    exact ite_length_max _
  · exact dedupFirst_nodup _

theorem insertSrcs_nodup (o : Option (List String)) (sh : String) :
    (match o with
      | some l => dedupFirst (l.filter (fun s => s != ""))
      | none => if sh ≠ "" then [sh] else []).Nodup := by
  cases o with
  | some l => exact dedupFirst_nodup _
  | none =>
    by_cases hs : sh ≠ ""
    · rw [if_pos hs]; simp
    · rw [if_neg hs]; simp

theorem insertRecord_occInv (env : JsEnv) (uid now : Nat) (c : Cand) (S : Store)
    (h : occInv S) : occInv (insertRecord env uid now c S) := by
  intro r hr
  unfold insertRecord at hr
  rcases List.mem_append.mp hr with h' | h'
  · exact h r h'
  · simp only [List.mem_singleton] at h'
    subst h'
    intro _
    exact ⟨ite_length_max _, insertSrcs_nodup c.sourceHashList c.sourceHash⟩

theorem detachRec_occInv (uid : Nat) (s : String) (now : Nat) (r : Rec)
    (h : occInvRec r) : occInvRec (detachRec uid s now r) := by
  unfold detachRec
  by_cases hcond : r.userId = uid ∧ r.dismissed = false ∧ s ∈ r.sourceHashes
  · rw [if_pos hcond]
    by_cases hemp : (r.sourceHashes.filter (fun x => x != s)).isEmpty = true
    · rw [if_pos hemp]
      intro hdis
      simp at hdis
    · rw [if_neg hemp]
      intro _
      obtain ⟨_, hnd⟩ := h hcond.2.1
      constructor
      · have hne : (r.sourceHashes.filter (fun x => x != s)).length ≠ 0 := by
          intro h0
          exact hemp (by simp [List.isEmpty_iff, List.length_eq_zero.mp h0])
        show (r.sourceHashes.filter (fun x => x != s)).length
            = max 1 (r.sourceHashes.filter (fun x => x != s)).length
        omega
      · exact List.Nodup.filter _ hnd
  · rw [if_neg hcond]
    exact h

theorem processCand_occInv (env : JsEnv) (oracle : ResolverOracle) (uid now : Nat)
    (st : IngestState) (c : Cand) (h : occInv st.store) :
    occInv (processCand env oracle uid now st c).store := by
  unfold processCand
  split_ifs
  · exact h
  · exact h
  · cases hch : (chosenExisting env oracle uid c st.store.recs st.cache).1 with
    | some prev =>
      intro r hr
      simp only [List.mem_map] at hr
      rcases hr with ⟨r0, hr0, rfl⟩
      by_cases hid : r0.id = prev.id
      · rw [if_pos hid]
        exact mergeRecord_occInv prev c now
      · rw [if_neg hid]
        exact h r0 hr0
    | none =>
      exact insertRecord_occInv env uid now c st.store h

theorem ingestBatch_occInv (env : JsEnv) (oracle : ResolverOracle) (uid now : Nat)
    (items : List Cand) (S : Store) (h : occInv S) :
    occInv (ingestBatch env oracle uid now items S) := by
  unfold ingestBatch
  split_ifs
  · exact h
  · have h1 : ∀ r ∈ (dedupFirst ((items.map candSources).flatten)).foldl
        (fun rs s => detachSourceFromExistingItems uid s now rs) S.recs, occInvRec r := by
      refine foldl_preserve (fun rs => ∀ r ∈ rs, occInvRec r) _ _ _ h ?_
      intro rs s _ hP r hr
      rcases List.mem_map.mp hr with ⟨r0, hr0, rfl⟩
      exact detachRec_occInv uid s now r0 (hP r0 hr0)
    refine foldl_preserve (fun st : IngestState => occInv st.store) _ items _ h1 ?_
    intro st x _ hP
    exact processCand_occInv env oracle uid now st x hP

/-- C3 (amended): every store state reachable through the ingestion
operations satisfies, for each active record,
`occurrenceCount == max(1, |sourceHashes|)` with a duplicate-free
source set.  (The claim's second half — empty `sourceHashes` implies
retired — fails, see the counterexample.) -/
theorem c3_occurrence_invariant (S : Store) (h : ReachableStore S) : occInv S := by
  induction h with
  | init => intro r hr; simp at hr
  | step S env oracle uid now items _ ih =>
    exact ingestBatch_occInv env oracle uid now items S ih

/-- Witness for C3 at a concrete reachable store. -/
theorem c3_occurrence_invariant_witness :
    occInv (ingestBatch ⟨fun _ => none, 2024⟩ noResolver 1 5
      [⟨"event", "soccer practice", "5/10", "", "", "", "", "", "", "s1", none, "", []⟩]
      ⟨[], 0⟩) :=
  c3_occurrence_invariant _
    (ReachableStore.step ⟨[], 0⟩ ⟨fun _ => none, 2024⟩ noResolver 1 5
      [⟨"event", "soccer practice", "5/10", "", "", "", "", "", "", "s1", none, "", []⟩]
      ReachableStore.init)

/-- Counterexample to C3 as stated: ingesting a relevant candidate that
carries no source identifier creates an *active* record with an empty
`sourceHashes` set (and occurrence count 1), in a reachable store — so
an empty source set does not imply the record is retired. -/
theorem c3_counterexample :
    ((ingestBatch ⟨fun _ => none, 2024⟩ noResolver 1 5
        [⟨"event", "soccer practice", "5/10", "", "", "", "", "", "", "", none, "", []⟩]
        ⟨[], 0⟩).recs.any
      (fun r => !r.dismissed && r.sourceHashes.isEmpty)) = true ∧
    ReachableStore (ingestBatch ⟨fun _ => none, 2024⟩ noResolver 1 5
      [⟨"event", "soccer practice", "5/10", "", "", "", "", "", "", "", none, "", []⟩]
      ⟨[], 0⟩) := by
  constructor
  · decide
  · exact ReachableStore.step ⟨[], 0⟩ ⟨fun _ => none, 2024⟩ noResolver 1 5
      [⟨"event", "soccer practice", "5/10", "", "", "", "", "", "", "", none, "", []⟩]
      ReachableStore.init

/-! ### Claim C4: helper lemmas about the merge combinators -/

theorem dedupFirst_aux_mem (x : String) : ∀ (l acc : List String),
    (x ∈ l.foldl (fun acc y => if y ∈ acc then acc else acc ++ [y]) acc ↔ x ∈ acc ∨ x ∈ l)
  | [], acc => by simp
  | y :: t, acc => by
    show x ∈ t.foldl _ (if y ∈ acc then acc else acc ++ [y]) ↔ _
    by_cases hy : y ∈ acc
    · rw [if_pos hy, dedupFirst_aux_mem x t acc]
      constructor
      · rintro (h | h)
        · exact Or.inl h
        · exact Or.inr (List.mem_cons_of_mem _ h)
      · rintro (h | h)
        · exact Or.inl h
        · rcases List.mem_cons.mp h with rfl | h'
          · exact Or.inl hy
          · exact Or.inr h'
    · rw [if_neg hy, dedupFirst_aux_mem x t (acc ++ [y])]
      simp only [List.mem_append, List.mem_singleton, List.mem_cons]
      tauto

theorem dedupFirst_mem (x : String) (l : List String) : x ∈ dedupFirst l ↔ x ∈ l := by
  rw [dedupFirst, dedupFirst_aux_mem]
  simp

theorem dedupFirst_aux_eq : ∀ (l acc : List String), l.Nodup → (∀ x ∈ l, x ∉ acc) →
    l.foldl (fun acc y => if y ∈ acc then acc else acc ++ [y]) acc = acc ++ l
  | [], acc => by simp
  | y :: t, acc => by
    intro hnd hdis
    show t.foldl _ (if y ∈ acc then acc else acc ++ [y]) = _
    rw [if_neg (hdis y (by simp))]
    rw [dedupFirst_aux_eq t (acc ++ [y]) (List.Nodup.of_cons hnd) ?_]
    · simp
    · intro x hx
      simp only [List.mem_append, List.mem_singleton]
      rintro (h | rfl)
      · exact hdis x (List.mem_cons_of_mem _ hx) h
      · exact (List.nodup_cons.mp hnd).1 hx

theorem dedupFirst_eq_self (l : List String) (h : l.Nodup) : dedupFirst l = l := by
  rw [dedupFirst, dedupFirst_aux_eq l [] h (by simp)]
  simp

theorem foldl_dedup_absorb : ∀ (f q : List String), (∀ x ∈ f, x ∈ q) →
    f.foldl (fun acc y => if y ∈ acc then acc else acc ++ [y]) q = q
  | [], q => by simp
  | y :: t, q => by
    intro h
    show t.foldl _ (if y ∈ q then q else q ++ [y]) = q
    rw [if_pos (h y (by simp))]
    exact foldl_dedup_absorb t q (fun x hx => h x (List.mem_cons_of_mem _ hx))

theorem dedupFirst_append_absorb (q f : List String) (hnd : q.Nodup)
    (hsub : ∀ x ∈ f, x ∈ q) : dedupFirst (q ++ f) = q := by
  rw [dedupFirst, List.foldl_append, dedupFirst_aux_eq q [] hnd (by simp)]
  simp only [List.nil_append]
  exact foldl_dedup_absorb f q hsub

theorem mergePeopleJs_stable (a f : List String) :
    mergePeopleJs (mergePeopleJs a f) f = mergePeopleJs a f := by
  unfold mergePeopleJs
  refine dedupFirst_append_absorb _ _ (dedupFirst_nodup _) ?_
  intro x hx
  rw [dedupFirst_mem]
  simp only [List.mem_append]
  exact Or.inr hx

theorem jsCoalesce_stable (i p : String) :
    jsCoalesce i (jsCoalesce i p) = jsCoalesce i p := by
  unfold jsCoalesce
  by_cases h : i ≠ "" <;> simp [h]

theorem jsMergeDesc_stable (p q : String) :
    jsMergeDesc (jsMergeDesc p q) q = jsMergeDesc p q := by
  unfold jsMergeDesc
  by_cases hq : q = ""
  · subst hq
    by_cases hle : p.length ≤ ("" : String).length <;> simp [hle]
  · by_cases hle : p.length ≤ q.length
    · rw [if_pos hle, if_neg hq, if_pos (le_refl _), if_neg hq]
    · rw [if_neg hle, if_neg hle]

theorem jsCat_stable (i p : String) : jsCat i (jsCat i p) = jsCat i p := by
  unfold jsCat
  by_cases hi : i ≠ ""
  · simp [hi]
  · rw [if_neg hi, if_neg hi]
    by_cases hp : p ≠ ""
    · rw [if_pos hp, if_pos hp]
    · rw [if_neg hp, if_pos (by decide : ("other" : String) ≠ "")]

theorem pickUrgency_or (a b : String) : pickUrgency a b = a ∨ pickUrgency a b = b := by
  unfold pickUrgency
  split_ifs <;> simp

theorem pickUrgency_right_idem (a b : String) :
    pickUrgency (pickUrgency a b) b = pickUrgency a b := by
  unfold pickUrgency
  by_cases h : jsGeOpt (urgencyOrder a) (urgencyOrder b) = true
  · rw [if_pos h, if_pos h]
  · rw [if_neg h]
    split_ifs <;> rfl

theorem jsUrg_ne_empty (u : String) : jsUrg u ≠ "" := by
  unfold jsUrg
  by_cases h : u = ""
  · rw [if_pos h]
    decide
  · rw [if_neg h]
    exact h

theorem jsUrg_of_ne (u : String) (h : u ≠ "") : jsUrg u = u := by
  unfold jsUrg
  rw [if_neg h]

theorem mergeHashesJs_of_fresh (h : List String) (sh : String) (hsh : sh ≠ "")
    (hnd : h.Nodup) (hno : sh ∉ h) : mergeHashesJs h sh = h ++ [sh] := by
  unfold mergeHashesJs
  rw [if_pos hsh]
  refine dedupFirst_eq_self _ ?_
  simp [List.nodup_append, hnd, hno]

theorem filter_out_append (h : List String) (sh : String) (hno : sh ∉ h) :
    (h ++ [sh]).filter (fun x => x != sh) = h := by
  rw [List.filter_append]
  have h1 : h.filter (fun x => x != sh) = h := by
    rw [List.filter_eq_self]
    intro a ha
    simp only [bne_iff_ne, ne_eq, decide_eq_true_eq]
    intro hx
    exact hno (hx ▸ ha)
  have h2 : ([sh].filter (fun x => x != sh)) = [] := by simp
  rw [h1, h2, List.append_nil]

/-! ### Claim C4: the date and time key components contain no separator -/

/-- The loose temporal key joins its components with the bar character;
the components produced by the normalizers never contain it, which makes
the two rightmost components of the key recoverable. -/
def PipeFree (s : String) : Prop := '|' ∉ s.data

theorem pipeFree_compact (v : String) : PipeFree (compact v) := by
  intro hc
  have hc' : '|' ∈ (normalizeText v).data.filter (fun c => !isWs c) := hc
  have hm := List.mem_filter.mp hc'
  rcases chars_of_normalizeText v '|' hm.1 with h | h
  · exact absurd h (by decide)
  · exact absurd h (by decide)

theorem digitChar_ne_pipe : ∀ (n : Nat), Nat.digitChar n ≠ '|'
  | 0 => by decide
  | 1 => by decide
  | 2 => by decide
  | 3 => by decide
  | 4 => by decide
  | 5 => by decide
  | 6 => by decide
  | 7 => by decide
  | 8 => by decide
  | 9 => by decide
  | 10 => by decide
  | 11 => by decide
  | 12 => by decide
  | 13 => by decide
  | 14 => by decide
  | 15 => by decide
  | _ + 16 => (by decide : ('*' : Char) ≠ '|')

theorem pipeFree_natToStrAux : ∀ (fuel n : Nat), '|' ∉ natToStrAux fuel n
  | 0, _ => fun hc => absurd hc (List.not_mem_nil _)
  | fuel + 1, n => by
    unfold natToStrAux
    by_cases h : n < 10
    · rw [if_pos h]
      intro hc
      exact digitChar_ne_pipe n (List.mem_singleton.mp hc).symm
    · rw [if_neg h]
      intro hc
      rcases List.mem_append.mp hc with hc' | hc'
      · exact pipeFree_natToStrAux fuel (n / 10) hc'
      · exact digitChar_ne_pipe (n % 10) (List.mem_singleton.mp hc').symm

theorem pipeFree_natToStr (n : Nat) : PipeFree (natToStr n) :=
  pipeFree_natToStrAux (n + 1) n

theorem pipeFree_of_not_mem (s : String) (h : ¬ '|' ∈ s.data) : PipeFree s := h

theorem pipeFree_of_append (s t : String) (hs : PipeFree s) (ht : PipeFree t) :
    PipeFree (s ++ t) := by
  intro hc
  rw [String.data_append] at hc
  rcases List.mem_append.mp hc with h | h
  · exact hs h
  · exact ht h

theorem pipeFree_pad2 (n : Nat) : PipeFree (pad2 n) := by
  unfold pad2
  by_cases h : n < 10
  · rw [if_pos h]
    exact pipeFree_of_append _ _ (pipeFree_of_not_mem _ (by decide)) (pipeFree_natToStr n)
  · rw [if_neg h]
    exact pipeFree_natToStr n

theorem pipeFree_normalizeDateKey (env : JsEnv) (v : String) :
    PipeFree (normalizeDateKey env v) := by
  simp only [normalizeDateKey]
  by_cases hv : v = ""
  · rw [if_pos hv]
    exact pipeFree_of_not_mem _ (by decide)
  · rw [if_neg hv]
    cases env.dateParse (String.mk (trimChars v.data)) with
    | some ymd =>
      obtain ⟨y, m, d⟩ := ymd
      show PipeFree (natToStr y ++ "-" ++ pad2 m ++ "-" ++ pad2 d)
      exact pipeFree_of_append _ _
        (pipeFree_of_append _ _
          (pipeFree_of_append _ _
            (pipeFree_of_append _ _ (pipeFree_natToStr _)
              (pipeFree_of_not_mem _ (by decide)))
            (pipeFree_pad2 _))
          (pipeFree_of_not_mem _ (by decide)))
        (pipeFree_pad2 _)
    | none =>
      cases mdyParse (String.mk (trimChars v.data)).data with
      | some mdy =>
        obtain ⟨mo, dy, yOpt⟩ := mdy
        show PipeFree (natToStr _ ++ "-" ++ pad2 mo ++ "-" ++ pad2 dy)
        exact pipeFree_of_append _ _
          (pipeFree_of_append _ _
            (pipeFree_of_append _ _
              (pipeFree_of_append _ _ (pipeFree_natToStr _)
                (pipeFree_of_not_mem _ (by decide)))
              (pipeFree_pad2 _))
            (pipeFree_of_not_mem _ (by decide)))
          (pipeFree_pad2 _)
      | none => exact pipeFree_compact _

theorem pipeFree_normalizeTimeKey (v : String) : PipeFree (normalizeTimeKey v) := by
  simp only [normalizeTimeKey]
  by_cases hv : v = ""
  · rw [if_pos hv]
    exact pipeFree_of_not_mem _ (by decide)
  · rw [if_neg hv]
    cases timeParse ((trimChars (lowerChars v.data)).filter
        (fun c => decide (c ≠ '.'))) with
    | none => exact pipeFree_compact _
    | some hma =>
      obtain ⟨h, mi, ap⟩ := hma
      show PipeFree (pad2 _ ++ ":" ++ pad2 mi)
      exact pipeFree_of_append _ _
        (pipeFree_of_append _ _ (pipeFree_pad2 _) (pipeFree_of_not_mem _ (by decide)))
        (pipeFree_pad2 _)

/-- Splitting on the last bar separator: if both suffixes avoid the
separator, the halves agree. -/
theorem sep_split : ∀ (a1 a2 b1 b2 : List Char),
    a1 ++ '|' :: b1 = a2 ++ '|' :: b2 → '|' ∉ b1 → '|' ∉ b2 → a1 = a2 ∧ b1 = b2
  | [], [], b1, b2 => by
    intro h _ _
    exact ⟨rfl, by simpa using h⟩
  | [], c :: a2, b1, b2 => by
    intro h hb1 _
    simp only [List.nil_append, List.cons_append, List.cons.injEq] at h
    exact absurd (h.2 ▸ List.mem_append_right a2 (List.mem_cons_self _ _)) hb1
  | c :: a1, [], b1, b2 => by
    intro h _ hb2
    simp only [List.nil_append, List.cons_append, List.cons.injEq] at h
    exact absurd (h.2.symm ▸ List.mem_append_right a1 (List.mem_cons_self _ _)) hb2
  | c :: a1, d :: a2, b1, b2 => by
    intro h hb1 hb2
    simp only [List.cons_append, List.cons.injEq] at h
    have ih := sep_split a1 a2 b1 b2 h.2 hb1 hb2
    exact ⟨by rw [h.1, ih.1], ih.2⟩

theorem string_of_data (s t : String) (h : s.data = t.data) : s = t := by
  cases s with
  | mk d1 =>
    cases t with
    | mk d2 => exact congrArg String.mk h

theorem key_split (s1 t1 s2 t2 : String)
    (h : s1 ++ "|" ++ t1 = s2 ++ "|" ++ t2) (h1 : PipeFree t1) (h2 : PipeFree t2) :
    s1 = s2 ∧ t1 = t2 := by
  have hd := congrArg String.data h
  simp only [String.data_append] at hd
  have hd' : s1.data ++ '|' :: t1.data = s2.data ++ '|' :: t2.data := by
    simpa using hd
  have := sep_split s1.data s2.data t1.data t2.data hd' h1 h2
  exact ⟨string_of_data _ _ this.1, string_of_data _ _ this.2⟩

/-- Decomposition of a loose-key equality: the date and time components
(and the leading type-and-title prefix) agree separately. -/
theorem bLTK_split (env : JsEnv) (ty1 ti1 d1 tm1 ty2 ti2 d2 tm2 : String)
    (h : buildLooseTemporalKey env ty1 ti1 d1 tm1 =
      buildLooseTemporalKey env ty2 ti2 d2 tm2) :
    (if ty1 = "" then "info" else ty1) ++ "|" ++ normalizeTitle ti1 =
      (if ty2 = "" then "info" else ty2) ++ "|" ++ normalizeTitle ti2 ∧
    normalizeDateKey env d1 = normalizeDateKey env d2 ∧
    normalizeTimeKey tm1 = normalizeTimeKey tm2 := by
  unfold buildLooseTemporalKey at h
  have step1 := key_split _ _ _ _ h (pipeFree_normalizeTimeKey tm1)
    (pipeFree_normalizeTimeKey tm2)
  have step2 := key_split _ _ _ _ step1.1 (pipeFree_normalizeDateKey env d1)
    (pipeFree_normalizeDateKey env d2)
  exact ⟨step2.1, step2.2, step1.2⟩

/-- Re-merging preserved fields keeps the loose key: coalescing the
candidate's date and time into a row whose loose key already equals the
candidate's loose key leaves the key unchanged. -/
theorem bLTK_coalesce (env : JsEnv) (ty ti d tm : String) (c : Cand)
    (h : buildLooseTemporalKey env ty ti d tm =
      buildLooseTemporalKey env c.type c.title c.date c.time) :
    buildLooseTemporalKey env ty ti (jsCoalesce c.date d) (jsCoalesce c.time tm) =
      buildLooseTemporalKey env c.type c.title c.date c.time := by
  obtain ⟨hpre, hd, htm⟩ := bLTK_split env ty ti d tm c.type c.title c.date c.time h
  have hd' : normalizeDateKey env (jsCoalesce c.date d) = normalizeDateKey env c.date := by
    unfold jsCoalesce
    by_cases hc : c.date ≠ ""
    · rw [if_pos hc]
    · rw [if_neg hc]
      exact hd
  have htm' : normalizeTimeKey (jsCoalesce c.time tm) = normalizeTimeKey c.time := by
    unfold jsCoalesce
    by_cases hc : c.time ≠ ""
    · rw [if_pos hc]
    · rw [if_neg hc]
      exact htm
  unfold buildLooseTemporalKey
  rw [hd', htm', hpre]

/-! ### Claim C4: behaviour of source withdrawal on the merged store -/

/-- The three possible outcomes of the per-row withdrawal. -/
theorem detachRec_cases (uid : Nat) (s : String) (now : Nat) (r : Rec) :
    detachRec uid s now r = r ∨
    detachRec uid s now r =
      { r with dismissed := true, occurrenceCount := 0, lastSeenAt := now } ∨
    detachRec uid s now r =
      { r with
        sourceHashes := r.sourceHashes.filter (fun x => x != s),
        occurrenceCount := (r.sourceHashes.filter (fun x => x != s)).length,
        lastSeenAt := now } := by
  unfold detachRec
  by_cases hcond : r.userId = uid ∧ r.dismissed = false ∧ s ∈ r.sourceHashes
  · rw [if_pos hcond]
    by_cases hemp : (r.sourceHashes.filter (fun x => x != s)).isEmpty = true
    · rw [if_pos hemp]
      exact Or.inr (Or.inl rfl)
    · rw [if_neg hemp]
      exact Or.inr (Or.inr rfl)
  · rw [if_neg hcond]
    exact Or.inl rfl

theorem detachRec_id (uid : Nat) (s : String) (now : Nat) (r : Rec) :
    (detachRec uid s now r).id = r.id := by
  rcases detachRec_cases uid s now r with h | h | h <;> rw [h]

theorem detachRec_canonicalKey (uid : Nat) (s : String) (now : Nat) (r : Rec) :
    (detachRec uid s now r).canonicalKey = r.canonicalKey := by
  rcases detachRec_cases uid s now r with h | h | h <;> rw [h]

/-- A record that is active afterwards was active before the withdrawal. -/
theorem detachRec_active (uid : Nat) (s : String) (now : Nat) (r : Rec)
    (h : isActiveFor uid (detachRec uid s now r) = true) : isActiveFor uid r = true := by
  rcases detachRec_cases uid s now r with hc | hc | hc <;> rw [hc] at h
  · exact h
  · simp [isActiveFor] at h
  · exact h

/-- After withdrawal, no record of the user that remains active still
references the withdrawn hash. -/
theorem detachRec_no_s (uid : Nat) (s : String) (now : Nat) (r : Rec)
    (h : isActiveFor uid (detachRec uid s now r) = true) :
    s ∉ (detachRec uid s now r).sourceHashes := by
  unfold detachRec at h ⊢
  by_cases hcond : r.userId = uid ∧ r.dismissed = false ∧ s ∈ r.sourceHashes
  · rw [if_pos hcond] at h ⊢
    by_cases hemp : (r.sourceHashes.filter (fun x => x != s)).isEmpty = true
    · rw [if_pos hemp] at h
      simp [isActiveFor] at h
    · rw [if_neg hemp]
      intro hm
      have := List.mem_filter.mp hm
      simp at this
  · rw [if_neg hcond]
    intro hm
    simp only [isActiveFor, Bool.and_eq_true, beq_iff_eq, Bool.not_eq_true'] at h
    rw [if_neg hcond] at h
    exact hcond ⟨h.1, h.2, hm⟩

/-- Withdrawal of a hash no active record references is the identity. -/
theorem detachRec_noop (uid : Nat) (s : String) (now : Nat) (r : Rec)
    (h : isActiveFor uid r = true → s ∉ r.sourceHashes) :
    detachRec uid s now r = r := by
  unfold detachRec
  rw [if_neg]
  rintro ⟨h1, h2, h3⟩
  exact h (by simp [isActiveFor, h1, h2]) h3

/-- Withdrawal preserves the nonempty-and-duplicate-free shape of active
records' source sets. -/
theorem detachRec_wf (uid : Nat) (s : String) (now : Nat) (r : Rec)
    (hwf : isActiveFor uid r = true → r.sourceHashes ≠ [] ∧ r.sourceHashes.Nodup)
    (h : isActiveFor uid (detachRec uid s now r) = true) :
    (detachRec uid s now r).sourceHashes ≠ [] ∧
      (detachRec uid s now r).sourceHashes.Nodup := by
  have hact := detachRec_active uid s now r h
  unfold detachRec at h ⊢
  by_cases hcond : r.userId = uid ∧ r.dismissed = false ∧ s ∈ r.sourceHashes
  · rw [if_pos hcond] at h ⊢
    by_cases hemp : (r.sourceHashes.filter (fun x => x != s)).isEmpty = true
    · rw [if_pos hemp] at h
      simp [isActiveFor] at h
    · rw [if_neg hemp]
      refine ⟨?_, List.Nodup.filter _ (hwf hact).2⟩
      intro habs
      rw [← List.isEmpty_iff] at habs
      exact hemp habs
  · rw [if_neg hcond]
    exact hwf hact

theorem detachRec_lastSeen_le (uid : Nat) (s : String) (now B : Nat) (r : Rec)
    (hr : r.lastSeenAt ≤ B) (hn : now ≤ B) : (detachRec uid s now r).lastSeenAt ≤ B := by
  rcases detachRec_cases uid s now r with h | h | h <;> rw [h] <;> assumption

/-- The merged row after re-withdrawal of the incoming hash: the prior
source set and count come back, only the clock moves. -/
theorem detach_merge (uid now1 now2 : Nat) (P : Rec) (c : Cand)
    (hu : P.userId = uid) (hd : P.dismissed = false) (hs : c.sourceHash ≠ "")
    (hnd : P.sourceHashes.Nodup) (hne : P.sourceHashes ≠ [])
    (hno : c.sourceHash ∉ P.sourceHashes) :
    detachRec uid c.sourceHash now2 (mergeRecord P c now1) =
      { mergeRecord P c now1 with
        sourceHashes := P.sourceHashes,
        occurrenceCount := P.sourceHashes.length, lastSeenAt := now2 } := by
  have hsh : (mergeRecord P c now1).sourceHashes = P.sourceHashes ++ [c.sourceHash] := by
    show mergeHashesJs P.sourceHashes c.sourceHash = _
    exact mergeHashesJs_of_fresh _ _ hs hnd hno
  have hnext : (mergeRecord P c now1).sourceHashes.filter (fun x => x != c.sourceHash) =
      P.sourceHashes := by
    rw [hsh]
    exact filter_out_append _ _ hno
  unfold detachRec
  rw [if_pos ⟨(rfl : (mergeRecord P c now1).userId = P.userId) ▸ hu,
    (rfl : (mergeRecord P c now1).dismissed = P.dismissed) ▸ hd,
    hsh ▸ List.mem_append_right _ (List.mem_singleton.mpr rfl)⟩]
  show (if ((mergeRecord P c now1).sourceHashes.filter
      (fun x => x != c.sourceHash)).isEmpty = true then _ else _) = _
  rw [hnext, if_neg (by simpa [List.isEmpty_iff] using hne)]

/-! ### Claim C4: ordering and lookup lemmas -/

theorem mem_insertByLastSeen (x r : Rec) : ∀ (l : List Rec),
    x ∈ insertByLastSeen r l ↔ x = r ∨ x ∈ l
  | [] => by simp [insertByLastSeen]
  | a :: t => by
    unfold insertByLastSeen
    by_cases hlt : r.lastSeenAt < a.lastSeenAt
    · rw [if_pos hlt, List.mem_cons, mem_insertByLastSeen x r t, List.mem_cons]
      tauto
    · rw [if_neg hlt]
      simp only [List.mem_cons]

theorem mem_sortLastSeenDesc (x : Rec) : ∀ (l : List Rec),
    x ∈ sortLastSeenDesc l ↔ x ∈ l
  | [] => Iff.rfl
  | a :: t => by
    unfold sortLastSeenDesc
    rw [mem_insertByLastSeen, mem_sortLastSeenDesc x t, List.mem_cons]

/-- An element strictly newer than all others heads the sort. -/
theorem sort_head_strictmax (x : Rec) : ∀ (l : List Rec), x ∈ l →
    (∀ y ∈ l, y ≠ x → y.lastSeenAt < x.lastSeenAt) →
    (sortLastSeenDesc l).head? = some x
  | [], hx, _ => absurd hx (List.not_mem_nil x)
  | a :: t, hx, hmax => by
    show (insertByLastSeen a (sortLastSeenDesc t)).head? = some x
    by_cases hax : a = x
    · subst hax
      cases hsort : sortLastSeenDesc t with
      | nil => rfl
      | cons h rest =>
        have hh : h ∈ t := (mem_sortLastSeenDesc h t).mp (hsort ▸ List.mem_cons_self h rest)
        have hnlt : ¬ a.lastSeenAt < h.lastSeenAt := by
          by_cases hha : h = a
          · subst hha
            exact lt_irrefl _
          · exact Nat.not_lt.mpr (le_of_lt (hmax h (List.mem_cons_of_mem _ hh) hha))
        unfold insertByLastSeen
        rw [if_neg hnlt]
        rfl
    · have hxt : x ∈ t := by
        rcases List.mem_cons.mp hx with rfl | h
        · exact absurd rfl hax
        · exact h
      have ih := sort_head_strictmax x t hxt
        (fun y hy hne => hmax y (List.mem_cons_of_mem _ hy) hne)
      cases hsort : sortLastSeenDesc t with
      | nil => rw [hsort] at ih; exact absurd ih (by simp)
      | cons h rest =>
        rw [hsort] at ih
        have hhx : h = x := by simpa using ih
        subst hhx
        unfold insertByLastSeen
        rw [if_pos (hmax a (List.mem_cons_self a t) hax)]
        rfl

/-- `find?` through a congruent update map. -/
theorem find?_map_agree {α : Type} (f : α → α) (p : α → Bool) :
    ∀ (l : List α), (∀ r ∈ l, p (f r) = p r) →
      (l.map f).find? p = (l.find? p).map f
  | [], _ => rfl
  | a :: t, h => by
    rw [List.map_cons]
    cases hpa : p a with
    | true =>
      have hfa : p (f a) = true := by
        rw [h a (List.mem_cons_self a t)]
        exact hpa
      rw [List.find?_cons_of_pos _ hfa, List.find?_cons_of_pos _ hpa]
      rfl
    | false =>
      have hfa : ¬ p (f a) = true := by
        rw [h a (List.mem_cons_self a t)]
        simp [hpa]
      rw [List.find?_cons_of_neg _ hfa, List.find?_cons_of_neg _ (by simp [hpa])]
      exact find?_map_agree f p t (fun r hr => h r (List.mem_cons_of_mem _ hr))

/-! ### Claim C4: the observable state of a record -/

/-- The fields the spec's idempotence property ranges over: everything
the merge writes except the timestamp (`last_seen_at` necessarily moves
to the ingestion time) and the row identity. -/
structure ObsRec where
  type : String
  title : String
  normalizedTitle : String
  canonicalKey : String
  date : String
  time : String
  endTime : String
  location : String
  description : String
  urgency : String
  category : String
  sourceHash : String
  sourceHashes : List String
  occurrenceCount : Nat
  rawText : String
  people : List String
  deriving DecidableEq

def obsRec (r : Rec) : ObsRec :=
  ⟨r.type, r.title, r.normalizedTitle, r.canonicalKey, r.date, r.time, r.endTime,
   r.location, r.description, r.urgency, r.category, r.sourceHash, r.sourceHashes,
   r.occurrenceCount, r.rawText, r.people⟩

/-- The observable state of the user's active records, in store order. -/
def obsActives (uid : Nat) (S : Store) : List ObsRec :=
  (S.recs.filter (fun r => isActiveFor uid r)).map obsRec

theorem obsActives_map_congr (uid : Nat) (f g : Rec → Rec) (n1 n2 : Nat) :
    ∀ (l : List Rec),
      (∀ r ∈ l, isActiveFor uid (f r) = isActiveFor uid (g r) ∧
        (isActiveFor uid (f r) = true → obsRec (f r) = obsRec (g r))) →
      obsActives uid ⟨l.map f, n1⟩ = obsActives uid ⟨l.map g, n2⟩
  | [], _ => rfl
  | a :: t, h => by
    have ih := obsActives_map_congr uid f g n1 n2 t
      (fun r hr => h r (List.mem_cons_of_mem _ hr))
    show ((f a :: t.map f).filter _).map obsRec = ((g a :: t.map g).filter _).map obsRec
    rw [List.filter_cons, List.filter_cons]
    cases hfa : isActiveFor uid (f a) with
    | true =>
      rw [← (h a (List.mem_cons_self a t)).1, hfa]
      simp only [if_pos trivial, List.map_cons]
      rw [(h a (List.mem_cons_self a t)).2 hfa]
      exact congrArg _ ih
    | false =>
      rw [← (h a (List.mem_cons_self a t)).1, hfa]
      simp only [Bool.false_eq_true, if_neg (fun h' => h')]
      exact ih

/-! ### Claim C4: reduction of a single-candidate batch -/

theorem candSources_single (c : Cand) (hs : c.sourceHash ≠ "")
    (hl : c.sourceHashList = none) : candSources c = [c.sourceHash] := by
  unfold candSources
  rw [hl]
  rw [if_pos (by simpa using hs)]

theorem dedupFirst_single (x : String) : dedupFirst [x] = [x] := by
  unfold dedupFirst
  show (if x ∈ ([] : List String) then [] else [] ++ [x]) = [x]
  rw [if_neg (List.not_mem_nil x)]
  rfl

/-- A one-candidate batch carrying one source hash: the handler
withdraws that hash and then runs the loop body once. -/
theorem ingestBatch_one (env : JsEnv) (oracle : ResolverOracle) (uid now : Nat)
    (c : Cand) (recs : List Rec) (n : Nat)
    (hs : c.sourceHash ≠ "") (hl : c.sourceHashList = none) :
    ingestBatch env oracle uid now [c] ⟨recs, n⟩ =
      (processCand env oracle uid now
        ⟨⟨detachSourceFromExistingItems uid c.sourceHash now recs, n⟩, [], []⟩
        c).store := by
  unfold ingestBatch
  rw [if_neg (by simp)]
  have hsrcs : dedupFirst (([c].map candSources).flatten) = [c.sourceHash] := by
    rw [show ([c].map candSources).flatten = candSources c by simp,
      candSources_single c hs hl, dedupFirst_single]
  simp only [hsrcs]
  rfl

/-- With the always-declining resolver and an empty per-batch cache the
merge target is the deterministic match. -/
theorem chosenExisting_noRes (env : JsEnv) (uid : Nat) (c : Cand) (recs : List Rec) :
    (chosenExisting env noResolver uid c recs []).1 =
      deterministicExisting env uid c recs := by
  unfold chosenExisting llmPhase
  have hcl : cacheLookup [] (resolutionKeyOf env c) = none := rfl
  simp only [hcl]
  by_cases hrows :
      (match deterministicExisting env uid c recs with
        | some ex =>
          if (llmCandidateRows uid (typeOf c) (normalizeTitle c.title) c.date c.time
              recs).any (fun r => r.id == ex.id) then
            llmCandidateRows uid (typeOf c) (normalizeTitle c.title) c.date c.time recs
          else ex :: llmCandidateRows uid (typeOf c) (normalizeTitle c.title) c.date
            c.time recs
        | none =>
          llmCandidateRows uid (typeOf c) (normalizeTitle c.title) c.date c.time
            recs).isEmpty = true
  · rw [if_pos hrows]
  · rw [if_neg hrows]
    rfl

/-- The loop body in the merge case. -/
theorem processCand_merge_eq (env : JsEnv) (oracle : ResolverOracle) (uid now : Nat)
    (recs : List Rec) (n : Nat) (c : Cand) (P : Rec)
    (hrel : isLikelyRelevant c = true)
    (hch : (chosenExisting env oracle uid c recs []).1 = some P) :
    (processCand env oracle uid now ⟨⟨recs, n⟩, [], []⟩ c).store =
      ⟨recs.map (fun r => if r.id = P.id then mergeRecord P c now else r), n⟩ := by
  unfold processCand
  rw [if_neg (by rw [hrel]; decide), if_neg (by simp)]
  show (match (chosenExisting env oracle uid c recs []).1 with
    | some prev => (⟨⟨recs.map
        (fun r : Rec => if r.id = prev.id then mergeRecord prev c now else r), n⟩,
        [dkeyOf env c],
        (chosenExisting env oracle uid c recs []).2⟩ : IngestState)
    | none => ⟨insertRecord env uid now c ⟨recs, n⟩,
        [dkeyOf env c],
        (chosenExisting env oracle uid c recs []).2⟩).store = _
  rw [hch]

/-- The loop body in the insert case. -/
theorem processCand_insert_eq (env : JsEnv) (oracle : ResolverOracle) (uid now : Nat)
    (recs : List Rec) (n : Nat) (c : Cand)
    (hrel : isLikelyRelevant c = true)
    (hch : (chosenExisting env oracle uid c recs []).1 = none) :
    (processCand env oracle uid now ⟨⟨recs, n⟩, [], []⟩ c).store =
      insertRecord env uid now c ⟨recs, n⟩ := by
  unfold processCand
  rw [if_neg (by rw [hrel]; decide), if_neg (by simp)]
  show (match (chosenExisting env oracle uid c recs []).1 with
    | some prev => (⟨⟨recs.map
        (fun r : Rec => if r.id = prev.id then mergeRecord prev c now else r), n⟩,
        [dkeyOf env c],
        (chosenExisting env oracle uid c recs []).2⟩ : IngestState)
    | none => ⟨insertRecord env uid now c ⟨recs, n⟩,
        [dkeyOf env c],
        (chosenExisting env oracle uid c recs []).2⟩).store = _
  rw [hch]

/-- The loop body in the irrelevant case. -/
theorem processCand_irrelevant_eq (env : JsEnv) (oracle : ResolverOracle)
    (uid now : Nat) (st : IngestState) (c : Cand)
    (hrel : isLikelyRelevant c = false) :
    processCand env oracle uid now st c = st := by
  unfold processCand
  rw [if_pos (by rw [hrel]; decide)]

/-! ### Claim C4: stability of the merged fields under a second merge -/

theorem urg_stable (p u : String) :
    pickUrgency (jsUrg (pickUrgency (jsUrg p) (jsUrg u))) (jsUrg u) =
      pickUrgency (jsUrg p) (jsUrg u) := by
  have hne : pickUrgency (jsUrg p) (jsUrg u) ≠ "" := by
    rcases pickUrgency_or (jsUrg p) (jsUrg u) with h | h <;> rw [h] <;>
      exact jsUrg_ne_empty _
  rw [jsUrg_of_ne _ hne]
  exact pickUrgency_right_idem _ _

/-- Merging the same candidate into the re-withdrawn merged row
reproduces every observable field of the first merge. -/
theorem merge_twice_obs (P : Rec) (c : Cand) (now1 now2 : Nat) :
    obsRec (mergeRecord
      { mergeRecord P c now1 with
        sourceHashes := P.sourceHashes,
        occurrenceCount := P.sourceHashes.length, lastSeenAt := now2 } c now2) =
      obsRec (mergeRecord P c now1) := by
  unfold obsRec mergeRecord
  simp only []
  rw [ObsRec.mk.injEq]
  refine ⟨rfl, rfl, rfl, rfl, ?_, ?_, ?_, ?_, ?_, ?_, ?_, ?_, ?_, ?_, ?_, ?_⟩
  · exact jsCoalesce_stable c.date P.date
  · exact jsCoalesce_stable c.time P.time
  · exact jsCoalesce_stable c.endTime P.endTime
  · exact jsCoalesce_stable c.location P.location
  · exact jsMergeDesc_stable P.description c.description
  · exact urg_stable P.urgency c.urgency
  · exact jsCat_stable c.category P.category
  · show jsCoalesce c.sourceHash (jsCoalesce c.sourceHash P.sourceHash) = _
    exact jsCoalesce_stable c.sourceHash P.sourceHash
  · exact congrArg _ rfl
  · rfl
  · exact jsCoalesce_stable c.rawText P.rawText
  · exact mergePeopleJs_stable P.people c.people

/-! ### Claim C4: lookup facts and the shape of a fresh insert -/

theorem map_congr_mem {α β : Type} : ∀ (l : List α) (f g : α → β),
    (∀ a ∈ l, f a = g a) → l.map f = l.map g
  | [], _, _, _ => rfl
  | a :: t, f, g, h => by
    rw [List.map_cons, List.map_cons, h a (List.mem_cons_self a t),
      map_congr_mem t f g (fun x hx => h x (List.mem_cons_of_mem _ hx))]

theorem isActiveFor_iff (uid : Nat) (r : Rec) :
    isActiveFor uid r = true ↔ r.userId = uid ∧ r.dismissed = false := by
  simp [isActiveFor]

theorem findExact_facts (uid : Nat) (key : String) (recs : List Rec) (P : Rec)
    (h : findExact uid key recs = some P) :
    P ∈ recs ∧ isActiveFor uid P = true ∧ P.canonicalKey = key := by
  unfold findExact at h
  have hp := List.find?_some h
  simp only [Bool.and_eq_true, beq_iff_eq] at hp
  exact ⟨List.mem_of_find?_eq_some h, hp.1, hp.2⟩

theorem findLoose_facts (env : JsEnv) (uid : Nat) (ty ntitle lk : String)
    (recs : List Rec) (P : Rec)
    (h : findLoose env uid ty ntitle lk recs = some P) :
    ntitle ≠ "" ∧ P ∈ recs ∧ isActiveFor uid P = true ∧ P.type = ty ∧
      P.normalizedTitle = ntitle ∧ rowLooseKey env P = lk := by
  unfold findLoose looseCandidates at h
  by_cases hn : ntitle = ""
  · rw [if_pos hn] at h
    exact absurd h (by simp)
  · rw [if_neg hn] at h
    have hkey := List.find?_some h
    rw [beq_iff_eq] at hkey
    have hmem := List.mem_of_find?_eq_some h
    have hmem2 := List.mem_of_mem_take hmem
    have hmem3 := (mem_sortLastSeenDesc P _).mp hmem2
    have hf := List.mem_filter.mp hmem3
    have hp := hf.2
    simp only [Bool.and_eq_true, beq_iff_eq] at hp
    exact ⟨hn, hf.1, hp.1.1, hp.1.2, hp.2, hkey⟩

theorem detExisting_some_cases (env : JsEnv) (uid : Nat) (c : Cand)
    (recs : List Rec) (P : Rec)
    (h : deterministicExisting env uid c recs = some P) :
    findExact uid (buildCanonicalKey env c.type c.title c.date c.time c.location)
        recs = some P ∨
      (findExact uid (buildCanonicalKey env c.type c.title c.date c.time c.location)
          recs = none ∧
        findLoose env uid (typeOf c) (normalizeTitle c.title)
          (buildLooseTemporalKey env c.type c.title c.date c.time) recs = some P) := by
  unfold deterministicExisting at h
  cases hfe : findExact uid
      (buildCanonicalKey env c.type c.title c.date c.time c.location) recs with
  | some Q =>
    rw [hfe] at h
    have h' : Q = P := Option.some.inj h
    subst h'
    exact Or.inl rfl
  | none =>
    rw [hfe] at h
    exact Or.inr ⟨rfl, h⟩

theorem detExisting_none_elim (env : JsEnv) (uid : Nat) (c : Cand) (recs : List Rec)
    (h : deterministicExisting env uid c recs = none) :
    findExact uid (buildCanonicalKey env c.type c.title c.date c.time c.location)
        recs = none ∧
      findLoose env uid (typeOf c) (normalizeTitle c.title)
        (buildLooseTemporalKey env c.type c.title c.date c.time) recs = none := by
  unfold deterministicExisting at h
  cases hfe : findExact uid
      (buildCanonicalKey env c.type c.title c.date c.time c.location) recs with
  | some Q =>
    rw [hfe] at h
    exact absurd h (by simp)
  | none =>
    rw [hfe] at h
    exact ⟨rfl, h⟩

theorem detExisting_of_exact (env : JsEnv) (uid : Nat) (c : Cand) (recs : List Rec)
    (P : Rec)
    (hfe : findExact uid (buildCanonicalKey env c.type c.title c.date c.time
      c.location) recs = some P) :
    deterministicExisting env uid c recs = some P := by
  unfold deterministicExisting
  rw [hfe]

theorem detExisting_of_loose (env : JsEnv) (uid : Nat) (c : Cand) (recs : List Rec)
    (P : Rec)
    (hfe : findExact uid (buildCanonicalKey env c.type c.title c.date c.time
      c.location) recs = none)
    (hfl : findLoose env uid (typeOf c) (normalizeTitle c.title)
      (buildLooseTemporalKey env c.type c.title c.date c.time) recs = some P) :
    deterministicExisting env uid c recs = some P := by
  unfold deterministicExisting
  rw [hfe, hfl]

theorem detExisting_of_none (env : JsEnv) (uid : Nat) (c : Cand) (recs : List Rec)
    (hfe : findExact uid (buildCanonicalKey env c.type c.title c.date c.time
      c.location) recs = none)
    (hfl : findLoose env uid (typeOf c) (normalizeTitle c.title)
      (buildLooseTemporalKey env c.type c.title c.date c.time) recs = none) :
    deterministicExisting env uid c recs = none := by
  unfold deterministicExisting
  rw [hfe, hfl]

/-- The row the insert branch creates from a single-source candidate. -/
def mkInsert (env : JsEnv) (uid now i : Nat) (c : Cand) : Rec :=
  ⟨i, uid, typeOf c, c.title, normalizeTitle c.title,
   buildCanonicalKey env c.type c.title c.date c.time c.location,
   c.date, c.time, c.endTime, c.location, c.description,
   (if c.urgency = "" then "medium" else c.urgency),
   (if c.category = "" then "other" else c.category),
   c.sourceHash, [c.sourceHash], 1, c.rawText, c.people, now, false⟩

theorem insertRecord_single_src (env : JsEnv) (uid now : Nat) (c : Cand) (S : Store)
    (hs : c.sourceHash ≠ "") (hl : c.sourceHashList = none) :
    insertRecord env uid now c S =
      ⟨S.recs ++ [mkInsert env uid now S.nextId c], S.nextId + 1⟩ := by
  obtain ⟨ty, ti, d, tm, et, loc, desc, urg, cat, sh, shl, raw, ppl⟩ := c
  obtain rfl : shl = none := hl
  simp only [insertRecord]
  rw [if_pos hs]
  rfl

theorem detach_mkInsert (env : JsEnv) (uid now1 now2 i : Nat) (c : Cand) :
    detachRec uid c.sourceHash now2 (mkInsert env uid now1 i c) =
      { mkInsert env uid now1 i c with
        dismissed := true, occurrenceCount := 0, lastSeenAt := now2 } := by
  unfold detachRec
  rw [if_pos ⟨rfl, rfl, List.mem_singleton.mpr rfl⟩]
  show (if (((mkInsert env uid now1 i c).sourceHashes.filter
      (fun x => x != c.sourceHash)).isEmpty = true) then _ else _) = _
  rw [if_pos (by
    show (([c.sourceHash].filter (fun x => x != c.sourceHash)).isEmpty = true)
    simp)]

/-- List-level congruence for the observable active rows of two updated
stores. -/
theorem obsFilter_congr (uid : Nat) (f g : Rec → Rec) :
    ∀ (l : List Rec),
      (∀ r ∈ l, isActiveFor uid (f r) = isActiveFor uid (g r) ∧
        (isActiveFor uid (f r) = true → obsRec (f r) = obsRec (g r))) →
      ((l.map f).filter (fun r => isActiveFor uid r)).map obsRec =
        ((l.map g).filter (fun r => isActiveFor uid r)).map obsRec
  | [], _ => rfl
  | a :: t, h => by
    have ih := obsFilter_congr uid f g t (fun r hr => h r (List.mem_cons_of_mem _ hr))
    rw [List.map_cons, List.map_cons, List.filter_cons, List.filter_cons]
    cases hfa : isActiveFor uid (f a) with
    | true =>
      rw [← (h a (List.mem_cons_self a t)).1, hfa]
      simp only [if_pos trivial, List.map_cons]
      rw [(h a (List.mem_cons_self a t)).2 hfa]
      exact congrArg _ ih
    | false =>
      rw [← (h a (List.mem_cons_self a t)).1, hfa]
      simp only [Bool.false_eq_true, if_neg (fun h' => h')]
      exact ih

/-! ### Claim C4: the merged row after the second withdrawal -/

/-- The merged row of the first ingestion after the second run's
withdrawal of the incoming hash: the prior source set and count are
restored and the clock moves to the second ingestion time. -/
def reMerged (P : Rec) (c : Cand) (now1 now2 : Nat) : Rec :=
  { mergeRecord P c now1 with
    sourceHashes := P.sourceHashes,
    occurrenceCount := P.sourceHashes.length, lastSeenAt := now2 }

theorem detach_reMerged (uid now1 now2 : Nat) (P : Rec) (c : Cand)
    (hu : P.userId = uid) (hd : P.dismissed = false) (hs : c.sourceHash ≠ "")
    (hnd : P.sourceHashes.Nodup) (hne : P.sourceHashes ≠ [])
    (hno : c.sourceHash ∉ P.sourceHashes) :
    detachRec uid c.sourceHash now2 (mergeRecord P c now1) = reMerged P c now1 now2 :=
  detach_merge uid now1 now2 P c hu hd hs hnd hne hno

theorem merge_reMerged_obs (P : Rec) (c : Cand) (now1 now2 : Nat) :
    obsRec (mergeRecord (reMerged P c now1 now2) c now2) =
      obsRec (mergeRecord P c now1) :=
  merge_twice_obs P c now1 now2

/-- The exact-key lookup commutes with replacing the matched row by its
re-merged version (identity of ids makes the replacement hit only the
matched row, whose activity and key the replacement preserves). -/
theorem findExact_map_reMerged (uid now1 now2 : Nat) (c : Cand)
    (recs1 : List Rec) (P : Rec) (key : String)
    (hids1 : (recs1.map Rec.id).Nodup) (hPmem : P ∈ recs1) :
    findExact uid key
        (recs1.map (fun r => if r.id = P.id then reMerged P c now1 now2 else r)) =
      Option.map (fun r => if r.id = P.id then reMerged P c now1 now2 else r)
        (findExact uid key recs1) := by
  unfold findExact
  refine find?_map_agree _ _ recs1 ?_
  intro r hr
  by_cases hid : r.id = P.id
  · have hrP : r = P := List.inj_on_of_nodup_map hids1 hr hPmem hid
    subst hrP
    show (isActiveFor uid (if r.id = r.id then reMerged r c now1 now2 else r) &&
      ((if r.id = r.id then reMerged r c now1 now2 else r).canonicalKey == key)) = _
    rw [if_pos rfl]
    rfl
  · show (isActiveFor uid (if r.id = P.id then reMerged P c now1 now2 else r) &&
      ((if r.id = P.id then reMerged P c now1 now2 else r).canonicalKey == key)) = _
    rw [if_neg hid]

/-- The fallback loose lookup finds the re-merged row: it is strictly
the most recent candidate and its recomputed loose key still equals the
candidate's loose key. -/
theorem findLoose_map_reMerged (env : JsEnv) (uid now1 now2 : Nat) (c : Cand)
    (recs1 : List Rec) (P : Rec)
    (h12 : now1 < now2) (hlast1 : ∀ r ∈ recs1, r.lastSeenAt ≤ now1)
    (hPmem : P ∈ recs1) (hPact : isActiveFor uid P = true)
    (hty : P.type = typeOf c) (hnt : P.normalizedTitle = normalizeTitle c.title)
    (hntne : normalizeTitle c.title ≠ "")
    (hkey : rowLooseKey env P = buildLooseTemporalKey env c.type c.title c.date c.time) :
    findLoose env uid (typeOf c) (normalizeTitle c.title)
        (buildLooseTemporalKey env c.type c.title c.date c.time)
        (recs1.map (fun r => if r.id = P.id then reMerged P c now1 now2 else r)) =
      some (reMerged P c now1 now2) := by
  unfold findLoose looseCandidates
  rw [if_neg hntne]
  have hact' : isActiveFor uid (reMerged P c now1 now2) = true := hPact
  have hq : (isActiveFor uid (reMerged P c now1 now2) &&
      ((reMerged P c now1 now2).type == typeOf c) &&
      ((reMerged P c now1 now2).normalizedTitle == normalizeTitle c.title)) = true := by
    rw [hact']
    rw [show (reMerged P c now1 now2).type = typeOf c from hty]
    rw [show (reMerged P c now1 now2).normalizedTitle = normalizeTitle c.title from hnt]
    simp
  have hmemf : reMerged P c now1 now2 ∈
      (recs1.map (fun r => if r.id = P.id then reMerged P c now1 now2 else r)).filter
        (fun r => isActiveFor uid r && r.type == typeOf c &&
          r.normalizedTitle == normalizeTitle c.title) := by
    refine List.mem_filter.mpr ⟨List.mem_map.mpr ⟨P, hPmem, by rw [if_pos rfl]⟩, hq⟩
  have hmax : ∀ y ∈
      (recs1.map (fun r => if r.id = P.id then reMerged P c now1 now2 else r)).filter
        (fun r => isActiveFor uid r && r.type == typeOf c &&
          r.normalizedTitle == normalizeTitle c.title),
      y ≠ reMerged P c now1 now2 →
        y.lastSeenAt < (reMerged P c now1 now2).lastSeenAt := by
    intro y hy hne
    rcases List.mem_map.mp (List.mem_filter.mp hy).1 with ⟨r, hr, hyr⟩
    by_cases hid : r.id = P.id
    · rw [if_pos hid] at hyr
      exact absurd hyr.symm hne
    · rw [if_neg hid] at hyr
      subst hyr
      show r.lastSeenAt < (reMerged P c now1 now2).lastSeenAt
      rw [show (reMerged P c now1 now2).lastSeenAt = now2 from rfl]
      exact lt_of_le_of_lt (hlast1 r hr) h12
  have hhead := sort_head_strictmax (reMerged P c now1 now2) _ hmemf hmax
  cases hsort : sortLastSeenDesc
      ((recs1.map (fun r => if r.id = P.id then reMerged P c now1 now2 else r)).filter
        (fun r => isActiveFor uid r && r.type == typeOf c &&
          r.normalizedTitle == normalizeTitle c.title)) with
  | nil =>
    rw [hsort] at hhead
    exact absurd hhead (by simp)
  | cons x rest =>
    rw [hsort] at hhead
    have hx : x = reMerged P c now1 now2 := Option.some.inj hhead
    rw [hx]
    show (reMerged P c now1 now2 :: rest.take 19).find?
        (fun r => rowLooseKey env r ==
          buildLooseTemporalKey env c.type c.title c.date c.time) =
      some (reMerged P c now1 now2)
    refine List.find?_cons_of_pos _ ?_
    rw [beq_iff_eq]
    show buildLooseTemporalKey env P.type P.title (jsCoalesce c.date P.date)
        (jsCoalesce c.time P.time) = _
    exact bLTK_coalesce env P.type P.title P.date P.time c hkey

/-! ### Claim C4: the merge branch reconverges -/

theorem c4_merge_core (env : JsEnv) (uid now1 now2 n0 : Nat) (c : Cand)
    (recs1 : List Rec) (P : Rec)
    (hs : c.sourceHash ≠ "") (hl : c.sourceHashList = none)
    (hrel : isLikelyRelevant c = true)
    (hwf1 : ∀ r ∈ recs1, isActiveFor uid r = true →
      r.sourceHashes ≠ [] ∧ r.sourceHashes.Nodup)
    (hnos1 : ∀ r ∈ recs1, isActiveFor uid r = true → c.sourceHash ∉ r.sourceHashes)
    (hPmem : P ∈ recs1) (hPact : isActiveFor uid P = true)
    (hch1P : (chosenExisting env noResolver uid c recs1 []).1 = some P)
    (hD2 : deterministicExisting env uid c
        (recs1.map (fun r => if r.id = P.id then reMerged P c now1 now2 else r)) =
      some (reMerged P c now1 now2)) :
    obsActives uid (ingestBatch env noResolver uid now2 [c]
        ((processCand env noResolver uid now1 ⟨⟨recs1, n0⟩, [], []⟩ c).store)) =
      obsActives uid ((processCand env noResolver uid now1 ⟨⟨recs1, n0⟩, [], []⟩ c).store) := by
  have hu : P.userId = uid := ((isActiveFor_iff uid P).mp hPact).1
  have hd : P.dismissed = false := ((isActiveFor_iff uid P).mp hPact).2
  have hPwf := hwf1 P hPmem hPact
  have hPnos := hnos1 P hPmem hPact
  rw [processCand_merge_eq env noResolver uid now1 recs1 n0 c P hrel hch1P]
  rw [ingestBatch_one env noResolver uid now2 c _ _ hs hl]
  have h2recs : detachSourceFromExistingItems uid c.sourceHash now2
      (recs1.map (fun r => if r.id = P.id then mergeRecord P c now1 else r)) =
      recs1.map (fun r => if r.id = P.id then reMerged P c now1 now2 else r) := by
    unfold detachSourceFromExistingItems
    rw [List.map_map]
    refine map_congr_mem recs1 _ _ ?_
    intro r hr
    show detachRec uid c.sourceHash now2
        (if r.id = P.id then mergeRecord P c now1 else r) = _
    by_cases hid : r.id = P.id
    · rw [if_pos hid, if_pos hid]
      exact detach_reMerged uid now1 now2 P c hu hd hs hPwf.2 hPwf.1 hPnos
    · rw [if_neg hid, if_neg hid]
      exact detachRec_noop uid c.sourceHash now2 r (fun hact => hnos1 r hr hact)
  rw [h2recs]
  rw [processCand_merge_eq env noResolver uid now2 _ n0 c (reMerged P c now1 now2) hrel
    (by rw [chosenExisting_noRes]; exact hD2)]
  rw [List.map_map]
  rw [map_congr_mem recs1 _
    (fun r => if r.id = P.id then mergeRecord (reMerged P c now1 now2) c now2 else r)
    (by
      intro r hr
      show (if (if r.id = P.id then reMerged P c now1 now2 else r).id =
          (reMerged P c now1 now2).id then
            mergeRecord (reMerged P c now1 now2) c now2
          else (if r.id = P.id then reMerged P c now1 now2 else r)) =
        (if r.id = P.id then mergeRecord (reMerged P c now1 now2) c now2 else r)
      by_cases hid : r.id = P.id
      · rw [if_pos hid, if_pos hid, if_pos rfl]
      · rw [if_neg hid, if_neg hid,
          if_neg (show ¬ r.id = (reMerged P c now1 now2).id from hid)])]
  show ((recs1.map (fun r => if r.id = P.id then
        mergeRecord (reMerged P c now1 now2) c now2 else r)).filter
      (fun r => isActiveFor uid r)).map obsRec =
    ((recs1.map (fun r => if r.id = P.id then mergeRecord P c now1 else r)).filter
      (fun r => isActiveFor uid r)).map obsRec
  refine obsFilter_congr uid _ _ recs1 ?_
  intro r hr
  constructor
  · show isActiveFor uid (if r.id = P.id then
        mergeRecord (reMerged P c now1 now2) c now2 else r) =
      isActiveFor uid (if r.id = P.id then mergeRecord P c now1 else r)
    by_cases hid : r.id = P.id
    · rw [if_pos hid, if_pos hid]
      rfl
    · rw [if_neg hid, if_neg hid]
  · intro _
    show obsRec (if r.id = P.id then
        mergeRecord (reMerged P c now1 now2) c now2 else r) =
      obsRec (if r.id = P.id then mergeRecord P c now1 else r)
    by_cases hid : r.id = P.id
    · rw [if_pos hid, if_pos hid]
      exact merge_reMerged_obs P c now1 now2
    · rw [if_neg hid, if_neg hid]

/-! ### Claim C4: one-candidate re-ingestion reconverges on the observable state -/

theorem c4_core (env : JsEnv) (uid now1 now2 n0 : Nat) (c : Cand) (recs1 : List Rec)
    (hs : c.sourceHash ≠ "") (hl : c.sourceHashList = none)
    (hwf1 : ∀ r ∈ recs1, isActiveFor uid r = true →
      r.sourceHashes ≠ [] ∧ r.sourceHashes.Nodup)
    (hnos1 : ∀ r ∈ recs1, isActiveFor uid r = true → c.sourceHash ∉ r.sourceHashes)
    (hlast1 : ∀ r ∈ recs1, r.lastSeenAt ≤ now1)
    (hids1 : (recs1.map Rec.id).Nodup)
    (h12 : now1 < now2) :
    obsActives uid (ingestBatch env noResolver uid now2 [c]
        ((processCand env noResolver uid now1 ⟨⟨recs1, n0⟩, [], []⟩ c).store)) =
      obsActives uid ((processCand env noResolver uid now1 ⟨⟨recs1, n0⟩, [], []⟩ c).store) := by
  have hidle : detachSourceFromExistingItems uid c.sourceHash now2 recs1 = recs1 :=
    map_id_of_mem _ _ (fun r hr => detachRec_noop uid c.sourceHash now2 r
      (fun hact => hnos1 r hr hact))
  cases hrel : isLikelyRelevant c with
  | false =>
    rw [processCand_irrelevant_eq env noResolver uid now1 _ c hrel]
    show obsActives uid (ingestBatch env noResolver uid now2 [c] ⟨recs1, n0⟩) =
      obsActives uid (⟨recs1, n0⟩ : Store)
    rw [ingestBatch_one env noResolver uid now2 c recs1 n0 hs hl, hidle,
      processCand_irrelevant_eq env noResolver uid now2 _ c hrel]
  | true =>
    have hch1 : (chosenExisting env noResolver uid c recs1 []).1 =
        deterministicExisting env uid c recs1 := chosenExisting_noRes env uid c recs1
    cases hD : deterministicExisting env uid c recs1 with
    | some P =>
      have hch1P : (chosenExisting env noResolver uid c recs1 []).1 = some P :=
        hch1.trans hD
      rcases detExisting_some_cases env uid c recs1 P hD with hfe | ⟨hfe, hfl⟩
      · have hPf := findExact_facts uid _ recs1 P hfe
        refine c4_merge_core env uid now1 now2 n0 c recs1 P hs hl hrel hwf1 hnos1
          hPf.1 hPf.2.1 hch1P ?_
        apply detExisting_of_exact
        rw [findExact_map_reMerged uid now1 now2 c recs1 P _ hids1 hPf.1, hfe]
        show some (if P.id = P.id then reMerged P c now1 now2 else P) = _
        rw [if_pos rfl]
      · have hLf := findLoose_facts env uid _ _ _ recs1 P hfl
        refine c4_merge_core env uid now1 now2 n0 c recs1 P hs hl hrel hwf1 hnos1
          hLf.2.1 hLf.2.2.1 hch1P ?_
        apply detExisting_of_loose
        · rw [findExact_map_reMerged uid now1 now2 c recs1 P _ hids1 hLf.2.1, hfe]
          rfl
        · exact findLoose_map_reMerged env uid now1 now2 c recs1 P h12 hlast1
            hLf.2.1 hLf.2.2.1 hLf.2.2.2.1 hLf.2.2.2.2.1 hLf.1 hLf.2.2.2.2.2
    | none =>
      obtain ⟨hfe, hfl⟩ := detExisting_none_elim env uid c recs1 hD
      rw [processCand_insert_eq env noResolver uid now1 recs1 n0 c hrel
        (hch1.trans hD)]
      rw [insertRecord_single_src env uid now1 c ⟨recs1, n0⟩ hs hl]
      show obsActives uid (ingestBatch env noResolver uid now2 [c]
          ⟨recs1 ++ [mkInsert env uid now1 n0 c], n0 + 1⟩) =
        obsActives uid (⟨recs1 ++ [mkInsert env uid now1 n0 c], n0 + 1⟩ : Store)
      rw [ingestBatch_one env noResolver uid now2 c
        (recs1 ++ [mkInsert env uid now1 n0 c]) (n0 + 1) hs hl]
      have h2recs : detachSourceFromExistingItems uid c.sourceHash now2
          (recs1 ++ [mkInsert env uid now1 n0 c]) =
          recs1 ++ [{ mkInsert env uid now1 n0 c with
            dismissed := true, occurrenceCount := 0, lastSeenAt := now2 }] := by
        unfold detachSourceFromExistingItems
        rw [List.map_append]
        unfold detachSourceFromExistingItems at hidle
        rw [hidle]
        rw [show List.map (detachRec uid c.sourceHash now2) [mkInsert env uid now1 n0 c]
          = [{ mkInsert env uid now1 n0 c with
              dismissed := true, occurrenceCount := 0, lastSeenAt := now2 }] from by
          rw [List.map_cons, List.map_nil, detach_mkInsert]]
      rw [h2recs]
      have hq' : isActiveFor uid { mkInsert env uid now1 n0 c with
          dismissed := true, occurrenceCount := 0, lastSeenAt := now2 } = false := by
        simp [isActiveFor]
      have hfe2 : findExact uid
          (buildCanonicalKey env c.type c.title c.date c.time c.location)
          (recs1 ++ [{ mkInsert env uid now1 n0 c with
            dismissed := true, occurrenceCount := 0, lastSeenAt := now2 }]) = none := by
        unfold findExact
        rw [List.find?_append]
        have hfe' : List.find? (fun r => isActiveFor uid r &&
            r.canonicalKey == buildCanonicalKey env c.type c.title c.date c.time
              c.location) recs1 = none := hfe
        rw [hfe']
        rw [show List.find? (fun r => isActiveFor uid r &&
            r.canonicalKey == buildCanonicalKey env c.type c.title c.date c.time
              c.location) [{ mkInsert env uid now1 n0 c with
            dismissed := true, occurrenceCount := 0, lastSeenAt := now2 }] = none from by
          refine List.find?_cons_of_neg _ ?_
          rw [hq']
          simp]
        rfl
      have hfl2 : findLoose env uid (typeOf c) (normalizeTitle c.title)
          (buildLooseTemporalKey env c.type c.title c.date c.time)
          (recs1 ++ [{ mkInsert env uid now1 n0 c with
            dismissed := true, occurrenceCount := 0, lastSeenAt := now2 }]) = none := by
        unfold findLoose looseCandidates
        unfold findLoose looseCandidates at hfl
        by_cases hnt : normalizeTitle c.title = ""
        · rw [if_pos hnt]
          rfl
        · rw [if_neg hnt] at hfl ⊢
          rw [List.filter_append]
          rw [show List.filter (fun r => isActiveFor uid r && r.type == typeOf c &&
              r.normalizedTitle == normalizeTitle c.title)
              [{ mkInsert env uid now1 n0 c with
                dismissed := true, occurrenceCount := 0, lastSeenAt := now2 }] =
              ([] : List Rec) from by
            rw [List.filter_cons]
            rw [show (isActiveFor uid { mkInsert env uid now1 n0 c with
                dismissed := true, occurrenceCount := 0, lastSeenAt := now2 } &&
              ({ mkInsert env uid now1 n0 c with
                dismissed := true, occurrenceCount := 0,
                lastSeenAt := now2 } : Rec).type == typeOf c &&
              ({ mkInsert env uid now1 n0 c with
                dismissed := true, occurrenceCount := 0,
                lastSeenAt := now2 } : Rec).normalizedTitle ==
                  normalizeTitle c.title) = false from by rw [hq']; rfl]
            rfl]
          rw [List.append_nil]
          exact hfl
      rw [processCand_insert_eq env noResolver uid now2 _ (n0 + 1) c hrel
        (by rw [chosenExisting_noRes]
            exact detExisting_of_none env uid c _ hfe2 hfl2)]
      rw [insertRecord_single_src env uid now2 c _ hs hl]
      show (((recs1 ++ [{ mkInsert env uid now1 n0 c with
            dismissed := true, occurrenceCount := 0, lastSeenAt := now2 }]) ++
          [mkInsert env uid now2 (n0 + 1) c]).filter
            (fun r => isActiveFor uid r)).map obsRec =
        ((recs1 ++ [mkInsert env uid now1 n0 c]).filter
          (fun r => isActiveFor uid r)).map obsRec
      rw [List.filter_append, List.filter_append, List.filter_append]
      rw [show List.filter (fun r => isActiveFor uid r)
          [{ mkInsert env uid now1 n0 c with
            dismissed := true, occurrenceCount := 0, lastSeenAt := now2 }] =
          ([] : List Rec) from by
        rw [List.filter_cons, hq']
        rfl]
      rw [show List.filter (fun r => isActiveFor uid r)
          [mkInsert env uid now2 (n0 + 1) c] = [mkInsert env uid now2 (n0 + 1) c] from by
        rw [List.filter_cons]
        rw [show isActiveFor uid (mkInsert env uid now2 (n0 + 1) c) = true from by
          simp [isActiveFor, mkInsert]]
        rfl]
      rw [show List.filter (fun r => isActiveFor uid r)
          [mkInsert env uid now1 n0 c] = [mkInsert env uid now1 n0 c] from by
        rw [List.filter_cons]
        rw [show isActiveFor uid (mkInsert env uid now1 n0 c) = true from by
          simp [isActiveFor, mkInsert]]
        rfl]
      rw [List.append_nil]
      rw [List.map_append, List.map_append]
      rfl

/-- C4 (amended): re-ingestion idempotence holds for the deterministic
path under the spec's own well-formedness assumptions.  For a
single-candidate batch that carries exactly one source identifier
(`source_hash` nonempty, no array field), with the resolver declining
(the deterministic re-matching mode the claim describes), re-ingesting
the identical candidate leaves the user's active records' observable
state — occurrence count and all merged fields — unchanged, provided
every active record of the prior store has a nonempty duplicate-free
source set (retired records excepted), row ids are distinct, and the
prior rows predate the first ingestion.  Without the nonempty-source
proviso the property fails (see the counterexample): an active record
with an empty source set is merged by the first run but retired by the
second run's detachment, and the re-created row loses the merged
fields. -/
theorem c4_single_source_reingest_idempotent
    (env : JsEnv) (uid now1 now2 : Nat) (c : Cand) (S : Store)
    (hs : c.sourceHash ≠ "") (hl : c.sourceHashList = none)
    (hwf : ∀ r ∈ S.recs, isActiveFor uid r = true →
      r.sourceHashes ≠ [] ∧ r.sourceHashes.Nodup)
    (hids : (S.recs.map Rec.id).Nodup)
    (hclock : ∀ r ∈ S.recs, r.lastSeenAt < now1)
    (h12 : now1 < now2) :
    obsActives uid (ingestBatch env noResolver uid now2 [c]
        (ingestBatch env noResolver uid now1 [c] S)) =
      obsActives uid (ingestBatch env noResolver uid now1 [c] S) := by
  obtain ⟨recs0, n0⟩ := S
  rw [ingestBatch_one env noResolver uid now1 c recs0 n0 hs hl]
  refine c4_core env uid now1 now2 n0 c
    (detachSourceFromExistingItems uid c.sourceHash now1 recs0) hs hl ?_ ?_ ?_ ?_ h12
  · intro r hr hact
    rcases List.mem_map.mp hr with ⟨r0, hr0, rfl⟩
    exact detachRec_wf uid c.sourceHash now1 r0 (hwf r0 hr0) hact
  · intro r hr hact
    rcases List.mem_map.mp hr with ⟨r0, hr0, rfl⟩
    exact detachRec_no_s uid c.sourceHash now1 r0 hact
  · intro r hr
    rcases List.mem_map.mp hr with ⟨r0, hr0, rfl⟩
    exact detachRec_lastSeen_le uid c.sourceHash now1 now1 r0
      (le_of_lt (hclock r0 hr0)) (le_refl _)
  · have hmid : (detachSourceFromExistingItems uid c.sourceHash now1 recs0).map Rec.id =
        recs0.map Rec.id := by
      unfold detachSourceFromExistingItems
      rw [List.map_map]
      exact map_congr_mem recs0 _ _ (fun r _ => detachRec_id uid c.sourceHash now1 r)
    rw [hmid]
    exact hids

/-- C4 counterexample to the unconditional claim: a store reachable by
ingesting a sourceless candidate holds an active record with an empty
source set; ingesting the same single-source batch twice with identical
content then changes the observable state — the first run merges into
that record (keeping its long description), the second run's detachment
retires it (its source set having become exactly the withdrawn hash)
and the re-created row keeps only the incoming fields. -/
theorem c4_counterexample :
    obsActives 1 (ingestBatch ⟨fun _ => none, 2024⟩ noResolver 1 7
        [⟨"event", "soccer practice", "5/10", "", "", "", "short", "", "", "s1",
          none, "", []⟩]
        (ingestBatch ⟨fun _ => none, 2024⟩ noResolver 1 6
          [⟨"event", "soccer practice", "5/10", "", "", "", "short", "", "", "s1",
            none, "", []⟩]
          (ingestBatch ⟨fun _ => none, 2024⟩ noResolver 1 5
            [⟨"event", "soccer practice", "5/10", "", "", "",
              "a much longer description text", "", "", "", none, "", []⟩]
            ⟨[], 0⟩))) ≠
      obsActives 1 (ingestBatch ⟨fun _ => none, 2024⟩ noResolver 1 6
        [⟨"event", "soccer practice", "5/10", "", "", "", "short", "", "", "s1",
          none, "", []⟩]
        (ingestBatch ⟨fun _ => none, 2024⟩ noResolver 1 5
          [⟨"event", "soccer practice", "5/10", "", "", "",
            "a much longer description text", "", "", "", none, "", []⟩]
          ⟨[], 0⟩)) ∧
    ReachableStore (ingestBatch ⟨fun _ => none, 2024⟩ noResolver 1 5
      [⟨"event", "soccer practice", "5/10", "", "", "",
        "a much longer description text", "", "", "", none, "", []⟩]
      ⟨[], 0⟩) := by
  constructor
  · decide
  · exact ReachableStore.step ⟨[], 0⟩ ⟨fun _ => none, 2024⟩ noResolver 1 5
      [⟨"event", "soccer practice", "5/10", "", "", "",
        "a much longer description text", "", "", "", none, "", []⟩]
      ReachableStore.init

/-- C4 witness: the amended theorem applied at a concrete instance (an
empty prior store, one single-source candidate, increasing clocks). -/
theorem c4_single_source_reingest_idempotent_witness :
    (⟨"event", "soccer practice", "5/10", "", "", "", "short", "", "", "s1",
        none, "", []⟩ : Cand).sourceHash ≠ "" ∧
    obsActives 1 (ingestBatch ⟨fun _ => none, 2024⟩ noResolver 1 7
        [⟨"event", "soccer practice", "5/10", "", "", "", "short", "", "", "s1",
          none, "", []⟩]
        (ingestBatch ⟨fun _ => none, 2024⟩ noResolver 1 6
          [⟨"event", "soccer practice", "5/10", "", "", "", "short", "", "", "s1",
            none, "", []⟩]
          ⟨[], 0⟩)) =
      obsActives 1 (ingestBatch ⟨fun _ => none, 2024⟩ noResolver 1 6
        [⟨"event", "soccer practice", "5/10", "", "", "", "short", "", "", "s1",
          none, "", []⟩]
        ⟨[], 0⟩) :=
  ⟨by decide,
    c4_single_source_reingest_idempotent ⟨fun _ => none, 2024⟩ 1 6 7
      ⟨"event", "soccer practice", "5/10", "", "", "", "short", "", "", "s1",
        none, "", []⟩
      ⟨[], 0⟩ (by decide) rfl
      (fun r hr => absurd hr (List.not_mem_nil r))
      (by decide)
      (fun r hr => absurd hr (List.not_mem_nil r))
      (by decide)⟩

end Oneshot
